import Mathlib

/-!
Verification development for the `mdast-util-slice-markdown` repository.

The repository contains two sibling implementations of character-range
slicing over mdast trees:

* `VA` models the metadata-returning implementation
  (src/unnamed/part_000: `slice`, `length`, `findText`, `presets`);
* `VB` models the strict implementation
  (src/unnamed/part_001: `sliceMarkdown`, `getNodeLength`,
  `getTreeLength`, `findTextPositions`, `getNodePosition`).

Modelling conventions:

* Strings are modelled as `List Char` (`Str`); JavaScript's
  `String.prototype.slice`, `trim`, `trimStart`, `trimEnd` and
  `replace(/\s+/g, ' ')` become `jsSlice`, `jsTrim`, `trimStart`,
  `trimEnd` and `collapseWS`.
* An mdast node is `MNode`: a `type` tag, an optional `value`,
  an optional `children` array (`none` models an absent `children`
  field, mirroring the `'children' in node` checks), a list of
  pass-through attributes, and an `id` tag.
* The `id` field models JavaScript object identity, not a data field:
  every allocation site in the source (`{...node}` spreads and
  `Object.assign({}, node, ...)`) produces a new object, modelled by
  setting `id := 0`; a source path that returns a node object it
  received keeps the node — and hence its `id` — unchanged.  Giving
  input nodes nonzero ids therefore makes aliasing observable.
* The `WeakMap` length caches are semantically transparent (they are
  only ever filled with the value the pure computation would return),
  so `getLength` / `getNodeLength` are modelled as the underlying pure
  recursion.
* The mutable `context.info` of part_000 and the mutable `position`
  of part_001 are threaded explicitly through the recursion.
* JavaScript `throw` in part_001's `sliceMarkdown` is modelled with
  `Except String`; part_000 contains no `throw`, so its `slice` is a
  total function into `SliceResultA`.
* part_001's `sliceMarkdown` validates that positions are integers
  (`Number.isInteger`), so its wrapper takes `ℚ` positions; the
  recursive core works on `Nat` positions, which is faithful because
  the core is only entered once validation has established
  non-negative integral positions.
-/

/-- Character-list strings, the model of JavaScript strings. -/
abbrev Str := List Char

/-- Whitespace test matching the characters JavaScript's `trim` and
`\s` treat as whitespace in the ASCII range. -/
def isWS (c : Char) : Bool :=
  c = ' ' ∨ c = '\t' ∨ c = '\n' ∨ c = '\r' ∨ c = '\x0b' ∨ c = '\x0c'

/-- JavaScript `trimStart`. -/
def trimStart (v : Str) : Str := v.dropWhile isWS

/-- JavaScript `trimEnd`. -/
def trimEnd (v : Str) : Str := (v.reverse.dropWhile isWS).reverse

/-- JavaScript `trim` (both ends). -/
def jsTrim (v : Str) : Str := trimStart (trimEnd v)

/-- Worker for `collapseWS`: the flag records whether the previous
character belonged to a whitespace run that has already emitted its
single replacement space. -/
def collapseGo : Bool → Str → Str
  | _, [] => []
  | inRun, c :: rest =>
    if isWS c then
      if inRun then collapseGo true rest else ' ' :: collapseGo true rest
    else c :: collapseGo false rest

/-- JavaScript `value.replace(/\s+/g, ' ')`: every maximal whitespace
run becomes a single space. -/
def collapseWS (v : Str) : Str := collapseGo false v

/-- JavaScript `value.slice(a, b)` for already-clamped indices
`0 ≤ a ≤ b ≤ v.length` (the only way the source calls it). -/
def jsSlice (v : Str) (a b : Nat) : Str := (v.drop a).take (b - a)

/-- An mdast node: `type` discriminant, optional `value`, optional
`children` (the `none`/`some` distinction models presence of the
`children` field), pass-through attributes, and the object-identity
tag `id` (see the header comment). -/
inductive MNode where
  | node (ty : String) (value : Option Str) (children : Option (List MNode))
      (attrs : List (String × String)) (id : Nat)
deriving Repr

/-- The `type` field. -/
def MNode.ty : MNode → String | .node t _ _ _ _ => t

/-- The `value` field (`none` when absent). -/
def MNode.value : MNode → Option Str | .node _ v _ _ _ => v

/-- The `children` field (`none` when absent). -/
def MNode.children : MNode → Option (List MNode) | .node _ _ c _ _ => c

/-- The pass-through attributes. -/
def MNode.attrs : MNode → List (String × String) | .node _ _ _ a _ => a

/-- The object-identity tag. -/
def MNode.idTag : MNode → Nat | .node _ _ _ _ i => i

mutual
/-- Decidable equality for `MNode` (the nested `List` forces a manual
instance). -/
def MNode.decEq : (a b : MNode) → Decidable (a = b)
  | .node t1 v1 c1 a1 i1, .node t2 v2 c2 a2 i2 =>
    if h1 : t1 = t2 then
      if h2 : v1 = v2 then
        if h4 : a1 = a2 then
          if h5 : i1 = i2 then
            match MNode.decEqOpt c1 c2 with
            | .isTrue h3 => .isTrue (by rw [h1, h2, h3, h4, h5])
            | .isFalse h3 =>
              .isFalse (fun h => by injection h with e1 e2 e3 e4 e5; exact h3 e3)
          else .isFalse (fun h => by injection h with e1 e2 e3 e4 e5; exact h5 e5)
        else .isFalse (fun h => by injection h with e1 e2 e3 e4 e5; exact h4 e4)
      else .isFalse (fun h => by injection h with e1 e2 e3 e4 e5; exact h2 e2)
    else .isFalse (fun h => by injection h with e1 e2 e3 e4 e5; exact h1 e1)
/-- Decidable equality on optional child arrays. -/
def MNode.decEqOpt : (a b : Option (List MNode)) → Decidable (a = b)
  | none, none => .isTrue rfl
  | some l1, some l2 =>
    match MNode.decEqList l1 l2 with
    | .isTrue h => .isTrue (by rw [h])
    | .isFalse h => .isFalse (fun hh => by injection hh with e; exact h e)
  | none, some _ => .isFalse (fun h => Option.noConfusion h)
  | some _, none => .isFalse (fun h => Option.noConfusion h)
/-- Decidable equality on child arrays. -/
def MNode.decEqList : (a b : List MNode) → Decidable (a = b)
  | [], [] => .isTrue rfl
  | x :: xs, y :: ys =>
    match MNode.decEq x y, MNode.decEqList xs ys with
    | .isTrue h1, .isTrue h2 => .isTrue (by rw [h1, h2])
    | .isFalse h1, _ => .isFalse (fun h => by injection h with e1 e2; exact h1 e1)
    | .isTrue _, .isFalse h2 => .isFalse (fun h => by injection h with e1 e2; exact h2 e2)
  | [], _ :: _ => .isFalse (fun h => List.noConfusion h)
  | _ :: _, [] => .isFalse (fun h => List.noConfusion h)
end

instance : DecidableEq MNode := MNode.decEq

/-- Result of slicing one node: the source functions return
`Node | Node[] | null`; this is the explicit three-way variant. -/
inductive SliceRes where
  | nothing
  | one (n : MNode)
  | many (ns : List MNode)
deriving Repr, DecidableEq

/-- Flatten a `Node | Node[] | null` result into the list of nodes it
contributes to a parent's rebuilt child array (the `push` /
`push(...)` logic of the child loops). -/
def SliceRes.toList : SliceRes → List MNode
  | .nothing => []
  | .one n => [n]
  | .many ns => ns

/-- Lift `Node | null` into `SliceRes`. -/
def liftO : Option MNode → SliceRes
  | some n => .one n
  | none => .nothing

/-- Truthiness of `node.value` (JavaScript: present and non-empty). -/
def truthyVal (n : MNode) : Bool :=
  match n.value with
  | some (_ :: _) => true
  | _ => false

/-- Shallow clone `{...node}`: copies every field, new identity. -/
def cloneN (n : MNode) : MNode := .node n.ty n.value n.children n.attrs 0

/-- Shallow clone with replaced `value`
(`{...node, value: v}` / `Object.assign({}, node, {value: v})`). -/
def cloneV (n : MNode) (v : Str) : MNode := .node n.ty (some v) n.children n.attrs 0

/-- Shallow clone with replaced `children`
(`{...node, children: cs}` / `Object.assign({}, node, {children: cs})`). -/
def cloneC (n : MNode) (cs : List MNode) : MNode := .node n.ty n.value (some cs) n.attrs 0

/-- Test-data builder: a `text` node. -/
def mkText (s : String) : MNode := .node "text" (some s.toList) none [] 0

/-- Test-data builder: a `text` node from a character list. -/
def mkTextL (v : Str) : MNode := .node "text" (some v) none [] 0

/-- Test-data builder: a `paragraph`. -/
def mkPara (cs : List MNode) : MNode := .node "paragraph" none (some cs) [] 0

/-- Test-data builder: an `emphasis`. -/
def mkEmph (cs : List MNode) : MNode := .node "emphasis" none (some cs) [] 0

/-- Test-data builder: an `inlineCode` node. -/
def mkIC (s : String) : MNode := .node "inlineCode" (some s.toList) none [] 0

mutual
/-- Structural size of a tree, used to compute the fuel supplied to
the recursive slicing workers (see the header comment). -/
def nodeFuel : MNode → Nat
  | .node _ _ (some cs) _ _ => 1 + kidsFuel cs
  | .node _ _ none _ _ => 1
/-- Structural size of a child list. -/
def kidsFuel : List MNode → Nat
  | [] => 1
  | c :: cs => 1 + nodeFuel c + kidsFuel cs
end

/-- Fuel supplied by the slicing entry points: one unit of fuel pays
for one level of recursion into children, and `nodeFuel t` strictly
dominates the depth of `t`. -/
def fuelFor (t : MNode) : Nat := nodeFuel t

/-- `matchAt v n i`: the needle `n` occurs in `v` at index `i`
(used to model `String.prototype.indexOf`). -/
def matchAt (v n : Str) (i : Nat) : Bool := (v.drop i).take n.length == n

namespace VA

/-!
Model of src/unnamed/part_000 — the metadata-returning implementation
(`slice` / `length` / `findText`).
-/

/-- `partialNodes` section of `SliceConfig` (part_000 lines 16–72).
The name avoids the word that the source uses for "partial" because
that word is reserved in Lean.  Fields hold the raw behavior strings;
`none` models an absent key, which matters because the top-level
config merge in `slice` is a shallow spread. -/
structure PartNodesA where
  text : Option String := none
  code : Option String := none
  inlineCode : Option String := none
  formatting : Option String := none
  media : Option String := none
  blocks : Option String := none
deriving Repr, DecidableEq

/-- `textHandling` section of `SliceConfig` (part_000 lines 78–105). -/
structure TextHandlingA where
  boundaries : Option String := none
  mergeAdjacent : Option Bool := none
  preserveLineBreaks : Option Bool := none
deriving Repr, DecidableEq

/-- `content` section of `SliceConfig` (part_000 lines 111–134). -/
structure ContentA where
  includeHidden : Option Bool := none
  includeReferences : Option Bool := none
  includeFootnotes : Option Bool := none
deriving Repr, DecidableEq

/-- User-facing `SliceConfig`: each section may be absent. -/
structure SliceConfigA where
  partNodes : Option PartNodesA := none
  textHandling : Option TextHandlingA := none
  content : Option ContentA := none
deriving Repr, DecidableEq

/-- `DEFAULT_CONFIG.partialNodes` (part_000 lines 192–199). -/
def defaultPN : PartNodesA :=
  { text := some "truncate", code := some "truncate", inlineCode := some "truncate",
    formatting := some "preserve", media := some "preserve", blocks := some "include" }

/-- `DEFAULT_CONFIG.textHandling` (part_000 lines 200–204). -/
def defaultTH : TextHandlingA :=
  { boundaries := some "trim", mergeAdjacent := some true, preserveLineBreaks := some true }

/-- `DEFAULT_CONFIG.content` (part_000 lines 205–209). -/
def defaultCT : ContentA :=
  { includeHidden := some false, includeReferences := some false,
    includeFootnotes := some false }

/-- Config after `{...DEFAULT_CONFIG, ...config}`: a top-level shallow
spread, so a user-provided section replaces the default section
wholesale. -/
structure ResolvedA where
  partNodes : PartNodesA
  textHandling : TextHandlingA
  content : ContentA
deriving Repr, DecidableEq

/-- The `{...DEFAULT_CONFIG, ...config}` merge (part_000 line 717). -/
def resolveConfig (c : SliceConfigA) : ResolvedA :=
  { partNodes := c.partNodes.getD defaultPN,
    textHandling := c.textHandling.getD defaultTH,
    content := c.content.getD defaultCT }

/-- The immutable part of `SliceContext` (part_000 lines 335–353). -/
structure CtxA where
  start : Nat
  stop : Nat
  config : ResolvedA
deriving Repr, DecidableEq

/-- The mutable `context.info`, threaded explicitly.  `modified`
models the insertion-ordered `Set` of modified node types. -/
structure InfoA where
  hasPartNodes : Bool
  modified : List String
deriving Repr, DecidableEq

/-- `context.info.hasPartialNodes = true` plus
`context.info.modifiedNodeTypes.add(type)` (Set semantics: append if
not yet present). -/
def markInfo (info : InfoA) (ty : String) : InfoA :=
  { hasPartNodes := true,
    modified := if info.modified.contains ty then info.modified else info.modified ++ [ty] }

/-- `isText` (part_000 line 229). -/
def isText (n : MNode) : Bool := n.ty = "text"

/-- `isFormatting` (part_000 lines 257–258). -/
def isFormatting (n : MNode) : Bool :=
  n.ty = "emphasis" ∨ n.ty = "strong" ∨ n.ty = "delete" ∨ n.ty = "underline"

/-- `isMedia` (part_000 lines 268–269). -/
def isMedia (n : MNode) : Bool :=
  n.ty = "link" ∨ n.ty = "linkReference" ∨ n.ty = "image" ∨ n.ty = "imageReference"

/-- `isBlock` (part_000 lines 279–280). -/
def isBlock (n : MNode) : Bool :=
  n.ty = "paragraph" ∨ n.ty = "heading" ∨ n.ty = "blockquote" ∨ n.ty = "listItem"

/-- `isParent` (part_000 lines 219–220): has a `children` array. -/
def isParent (n : MNode) : Bool := n.children.isSome

mutual
/-- `calculateLength` (part_000 lines 290–300): a truthy `value`
contributes its length no matter the node type; otherwise a parent
sums its children; otherwise 0. -/
def calculateLength : MNode → Nat
  | .node _ (some (c :: rest)) _ _ _ => (c :: rest).length
  | .node _ _ (some cs) _ _ => sumLength cs
  | _ => 0
/-- The `reduce` in `calculateLength`. -/
def sumLength : List MNode → Nat
  | [] => 0
  | c :: cs => calculateLength c + sumLength cs
end

/-- `getLength` (part_000 lines 318–328): `null` maps to 0, otherwise
the (cached) `calculateLength`.  The `WeakMap` cache is semantically
transparent, so it is elided. -/
def getLength : Option MNode → Nat
  | none => 0
  | some n => calculateLength n

/-- Lookup `config.partialNodes[node.type]` (part_000 line 384):
returns the raw field for the six known keys, `none` otherwise. -/
def pnLookup (pn : PartNodesA) : String → Option String
  | "text" => pn.text
  | "code" => pn.code
  | "inlineCode" => pn.inlineCode
  | "formatting" => pn.formatting
  | "media" => pn.media
  | "blocks" => pn.blocks
  | _ => none

/-- `config.partialNodes[node.type] ?? config.partialNodes.text`
(part_000 line 384). -/
def behaviorForValue (pn : PartNodesA) (ty : String) : Option String :=
  match pnLookup pn ty with
  | some b => some b
  | none => pn.text

/-- `sliceNodeWithValue` (part_000 lines 366–420). -/
def sliceNodeWithValue (n : MNode) (nodeStart : Nat) (ctx : CtxA) (info : InfoA) :
    Option MNode × InfoA :=
  let v := n.value.getD []
  let nodeEnd := nodeStart + v.length
  if nodeEnd ≤ ctx.start ∨ nodeStart ≥ ctx.stop then (none, info)
  else if nodeStart ≥ ctx.start ∧ nodeEnd ≤ ctx.stop then (some (cloneN n), info)
  else
    let info1 := markInfo info n.ty
    let behavior := behaviorForValue ctx.config.partNodes n.ty
    if behavior = some "include-full" then (some (cloneN n), info1)
    else if behavior = some "exclude-full" then (none, info1)
    else
      let sliceStart := ctx.start - nodeStart
      let sliceEnd := min v.length (ctx.stop - nodeStart)
      let sliced := jsSlice v sliceStart sliceEnd
      let isCodeLike := n.ty = "inlineCode" ∨ n.ty = "code"
      let sliced2 :=
        if ¬isCodeLike then
          if ctx.config.textHandling.boundaries = some "trim" then
            let isAtStart := nodeStart = ctx.start
            let isAtEnd := nodeEnd = ctx.stop
            if ¬isAtStart ∧ ¬isAtEnd then jsTrim sliced
            else if ¬isAtStart then trimStart sliced
            else if ¬isAtEnd then trimEnd sliced
            else sliced
          else if ctx.config.textHandling.boundaries = some "normalize" then
            collapseWS sliced
          else sliced
        else sliced
      if sliced2.length > 0 then (some (cloneV n sliced2), info1) else (none, info1)

/-- One step of `mergeAdjacentText`'s loop (part_000 lines 669–681). -/
def mergeStep (result : List MNode) (n : MNode) : List MNode :=
  match result.getLast? with
  | some last =>
    if isText last ∧ isText n then
      result.dropLast ++
        [MNode.node last.ty (some (last.value.getD [] ++ n.value.getD []))
          last.children last.attrs 0]
    else result ++ [n]
  | none => result ++ [n]

/-- `mergeAdjacentText` (part_000 lines 666–684). -/
def mergeAdjacentText (nodes : List MNode) : List MNode :=
  nodes.foldl mergeStep []

/-- The type of the recursive child-slicer threaded through the
part_000 helpers: slicing a node at a position under a context and
info state.  The per-category functions below take it as their first
argument `recur`; `sliceNode` ties the recursive knot with a fuel
counter (see the header comment). -/
abbrev RecA := MNode → Nat → CtxA → InfoA → SliceRes × InfoA

/-- The child loop of `sliceParent` (part_000 lines 589–603): slice
each child at its running offset and advance by the child's full
original length. -/
def sliceKids (recur : RecA) : List MNode → Nat → CtxA → InfoA → List MNode × InfoA
  | [], _, _, info => ([], info)
  | c :: rest, pos, ctx, info =>
    let r := recur c pos ctx info
    let childLength := calculateLength c
    let r2 := sliceKids recur rest (pos + childLength) ctx r.2
    (r.1.toList ++ r2.1, r2.2)

/-- `sliceParent` (part_000 lines 585–616): rebuild the child array,
optionally merge adjacent text nodes, drop the container when the
rebuilt array is empty. -/
def sliceParent (recur : RecA) (n : MNode) (nodeStart : Nat) (ctx : CtxA)
    (info : InfoA) : Option MNode × InfoA :=
  let r := sliceKids recur (n.children.getD []) nodeStart ctx info
  let finalChildren :=
    if ctx.config.textHandling.mergeAdjacent = some true then
      mergeAdjacentText r.1
    else r.1
  if finalChildren.isEmpty then (none, r.2)
  else (some (cloneC n finalChildren), r.2)

/-- `sliceFormatting` (part_000 lines 434–475). -/
def sliceFormatting (recur : RecA) (n : MNode) (nodeStart : Nat) (ctx : CtxA)
    (info : InfoA) : SliceRes × InfoA :=
  let nodeEnd := nodeStart + calculateLength n
  if nodeEnd ≤ ctx.start ∨ nodeStart ≥ ctx.stop then (.nothing, info)
  else if nodeStart ≥ ctx.start ∧ nodeEnd ≤ ctx.stop then
    if isParent n then
      let r := sliceParent recur n nodeStart ctx info
      (liftO r.1, r.2)
    else (.one (cloneN n), info)
  else
    let info1 := markInfo info n.ty
    let behavior := ctx.config.partNodes.formatting
    if behavior = some "strip" then
      if isParent n then
        match sliceParent recur n nodeStart ctx info1 with
        | (some p, i2) => (.many (p.children.getD []), i2)
        | (none, i2) => (.nothing, i2)
      else (.nothing, info1)
    else if behavior = some "extend" then
      if isParent n then
        let r := sliceParent recur n nodeStart ctx info1
        (liftO r.1, r.2)
      else (.one (cloneN n), info1)
    else
      if isParent n then
        let r := sliceParent recur n nodeStart ctx info1
        (liftO r.1, r.2)
      else (.one (cloneN n), info1)

/-- `sliceMedia` (part_000 lines 488–524). -/
def sliceMedia (recur : RecA) (n : MNode) (nodeStart : Nat) (ctx : CtxA)
    (info : InfoA) : SliceRes × InfoA :=
  let nodeEnd := nodeStart + calculateLength n
  if nodeEnd ≤ ctx.start ∨ nodeStart ≥ ctx.stop then (.nothing, info)
  else if nodeStart ≥ ctx.start ∧ nodeEnd ≤ ctx.stop then
    if isParent n then
      let r := sliceParent recur n nodeStart ctx info
      (liftO r.1, r.2)
    else (.one (cloneN n), info)
  else
    let info1 := markInfo info n.ty
    let behavior := ctx.config.partNodes.media
    if behavior = some "strip" then (.nothing, info1)
    else if behavior = some "content-only" then
      if isParent n then
        match sliceParent recur n nodeStart ctx info1 with
        | (some p, i2) => (.many (p.children.getD []), i2)
        | (none, i2) => (.nothing, i2)
      else (.nothing, info1)
    else
      if isParent n then
        let r := sliceParent recur n nodeStart ctx info1
        (liftO r.1, r.2)
      else (.one (cloneN n), info1)

/-- `sliceBlock` (part_000 lines 537–573). -/
def sliceBlock (recur : RecA) (n : MNode) (nodeStart : Nat) (ctx : CtxA)
    (info : InfoA) : SliceRes × InfoA :=
  let nodeEnd := nodeStart + calculateLength n
  if nodeEnd ≤ ctx.start ∨ nodeStart ≥ ctx.stop then (.nothing, info)
  else if nodeStart ≥ ctx.start ∧ nodeEnd ≤ ctx.stop then
    if isParent n then
      let r := sliceParent recur n nodeStart ctx info
      (liftO r.1, r.2)
    else (.one (cloneN n), info)
  else
    let info1 := markInfo info n.ty
    let behavior := ctx.config.partNodes.blocks
    if behavior = some "exclude" then (.nothing, info1)
    else if behavior = some "unwrap" then
      if isParent n then
        match sliceParent recur n nodeStart ctx info1 with
        | (some p, i2) => (.many (p.children.getD []), i2)
        | (none, i2) => (.nothing, i2)
      else (.nothing, info1)
    else
      if isParent n then
        let r := sliceParent recur n nodeStart ctx info1
        (liftO r.1, r.2)
      else (.one (cloneN n), info1)

/-- `sliceNode` (part_000 lines 628–655): the dispatcher, with the
recursion into children paid for by one unit of fuel per tree level;
the entry point supplies `fuelFor t`, which strictly dominates the
tree depth, so the exhaustion branch is never taken on the tree the
entry point is called with. -/
def sliceNode : Nat → MNode → Nat → CtxA → InfoA → SliceRes × InfoA
  | 0, _, _, _, info => (.nothing, info)
  | fuel + 1, n, nodeStart, ctx, info =>
    if truthyVal n then
      let r := sliceNodeWithValue n nodeStart ctx info
      (liftO r.1, r.2)
    else if isFormatting n then sliceFormatting (sliceNode fuel) n nodeStart ctx info
    else if isMedia n then sliceMedia (sliceNode fuel) n nodeStart ctx info
    else if isBlock n then sliceBlock (sliceNode fuel) n nodeStart ctx info
    else if isParent n then
      let r := sliceParent (sliceNode fuel) n nodeStart ctx info
      (liftO r.1, r.2)
    else
      let nodeEnd := nodeStart + calculateLength n
      if nodeEnd > ctx.start ∧ nodeStart < ctx.stop then (.one (cloneN n), info)
      else (.nothing, info)

/-- `SliceResult` (part_000 lines 141–184), with `boundaries` split
into `bStart`/`bEnd` (they are `Int` because the callers may pass
negative positions, which the source reports back unchanged). -/
structure SliceResultA where
  node : Option MNode
  bStart : Int
  bEnd : Int
  originalLength : Nat
  slicedLength : Nat
  hasPartNodes : Bool
  modifiedNodeTypes : List String
deriving Repr, DecidableEq

/-- The all-zero result `slice` returns for a null tree or negative
start (part_000 lines 704–715). -/
def zeroResult : SliceResultA :=
  { node := none, bStart := 0, bEnd := 0, originalLength := 0, slicedLength := 0,
    hasPartNodes := false, modifiedNodeTypes := [] }

/-- The clamped effective end position (part_000 line 719):
`end !== undefined ? Math.min(end, originalLength) : originalLength`. -/
def actualEndOf (originalLength : Nat) : Option Int → Int
  | some e => min e (originalLength : Int)
  | none => (originalLength : Int)

/-- `slice` (part_000 lines 698–757). -/
def slice (tree : Option MNode) (start : Int) (stop : Option Int)
    (config : SliceConfigA) : SliceResultA :=
  match tree with
  | none => zeroResult
  | some t =>
    if start < 0 then zeroResult
    else
      let resolved := resolveConfig config
      let originalLength := getLength (some t)
      let actualEnd := actualEndOf originalLength stop
      if start ≥ actualEnd then
        { node := none, bStart := start, bEnd := actualEnd,
          originalLength := originalLength, slicedLength := 0,
          hasPartNodes := false, modifiedNodeTypes := [] }
      else
        let ctx : CtxA := { start := start.toNat, stop := actualEnd.toNat, config := resolved }
        let r := sliceNode (fuelFor t) t 0 ctx ⟨false, []⟩
        let finalNode : Option MNode :=
          match r.1 with
          | .one m => some m
          | _ => none    -- arrays are flattened to null at root level
        { node := finalNode, bStart := start, bEnd := actualEnd,
          originalLength := originalLength,
          slicedLength := getLength finalNode,
          hasPartNodes := r.2.hasPartNodes, modifiedNodeTypes := r.2.modified }

/-- `length` (part_000 line 768). -/
def length (tree : Option MNode) : Nat := getLength tree

/-- Fuel-driven loop computing `v.indexOf(n, i)`: the first index
`j ≥ i` at which `n` fits and matches, if any.  The fuel
`v.length + 1 - i` always suffices. -/
def indexOfLoop (v n : Str) : Nat → Nat → Option Nat
  | 0, _ => none
  | fuel + 1, i =>
    if i + n.length ≤ v.length then
      if matchAt v n i then some i else indexOfLoop v n fuel (i + 1)
    else none

/-- `v.indexOf(n, i)` (with `none` for `-1`). -/
def indexOfFrom (v n : Str) (i : Nat) : Option Nat :=
  indexOfLoop v n (v.length + 1 - i) i

/-- Fuel-driven model of the `while ((index = value.indexOf(search,
index)) !== -1) { positions.push(...); index++ }` loops of `findText`
(part_000 lines 790–794 and 797–801). -/
def occLoop (v n : Str) : Nat → Nat → List Nat
  | 0, _ => []
  | fuel + 1, i =>
    match indexOfFrom v n i with
    | none => []
    | some j => j :: occLoop v n fuel (j + 1)

/-- All hit indices of the indexOf loop starting at `i`. -/
def occFrom (v n : Str) (i : Nat) : List Nat := occLoop v n (v.length + 1 - i) i

mutual
/-- The `traverse` closure of `findText` (part_000 lines 788–808),
with the mutable `offset` threaded through: returns the positions
found in this subtree plus the advanced offset.  Only `text`, `code`
and `inlineCode` leaves are searched and advance the offset. -/
def findTextAux (n : MNode) (needle : Str) (off : Nat) : List Nat × Nat :=
  match n with
  | .node ty v c _ _ =>
    if ty = "text" then
      (((occFrom (v.getD []) needle 0).map (off + ·)), off + (v.getD []).length)
    else if ty = "code" ∨ ty = "inlineCode" then
      (((occFrom (v.getD []) needle 0).map (off + ·)), off + (v.getD []).length)
    else
      match c with
      | some cs => findTextKids cs needle off
      | none => ([], off)
/-- The child loop of `traverse`. -/
def findTextKids (cs : List MNode) (needle : Str) (off : Nat) : List Nat × Nat :=
  match cs with
  | [] => ([], off)
  | c :: rest =>
    let r := findTextAux c needle off
    let r2 := findTextKids rest needle r.2
    (r.1 ++ r2.1, r2.2)
end

/-- `findText` (part_000 lines 780–812). -/
def findText (tree : MNode) (searchText : Str) : List Nat :=
  if searchText.length < 1 then []
  else (findTextAux tree searchText 0).1

end VA

namespace VB

/-!
Model of src/unnamed/part_001 — the strict implementation
(`sliceMarkdown` / `getTreeLength` / `findTextPositions` /
`getNodePosition`).
-/

/-- The `behavior` option record (part_001 lines 15–25), with `none`
for an absent key. -/
structure BehaviorOptB where
  link : Option String := none
  emphasis : Option String := none
  strong : Option String := none
  delete : Option String := none
  inlineCode : Option String := none
  code : Option String := none
  image : Option String := none
  imageReference : Option String := none
  linkReference : Option String := none
deriving Repr, DecidableEq

/-- `SliceOptions` (part_001 lines 7–30). -/
structure SliceOptionsB where
  behavior : BehaviorOptB := {}
  preserveBlocks : Option Bool := none
  trimWhitespace : Option Bool := none
deriving Repr, DecidableEq

/-- The fully-resolved behavior record. -/
structure BehaviorB where
  link : String
  emphasis : String
  strong : String
  delete : String
  inlineCode : String
  code : String
  image : String
  imageReference : String
  linkReference : String
deriving Repr, DecidableEq

/-- `DEFAULT_BEHAVIOR` (part_001 lines 44–54). -/
def defaultBehavior : BehaviorB :=
  { link := "content", emphasis := "content", strong := "content",
    delete := "content", inlineCode := "preserve", code := "preserve",
    image := "preserve", imageReference := "preserve", linkReference := "content" }

/-- `ResolvedOptions` (part_001 lines 35–37). -/
structure ROptionsB where
  behavior : BehaviorB
  preserveBlocks : Bool
  trimWhitespace : Bool
deriving Repr, DecidableEq

/-- The option resolution in `sliceMarkdown` (part_001 lines 141–145):
`Object.assign({}, DEFAULT_BEHAVIOR, options.behavior)` merges
per key, `preserveBlocks ?? true`, `trimWhitespace ?? false`. -/
def resolveOptions (o : SliceOptionsB) : ROptionsB :=
  { behavior :=
      { link := o.behavior.link.getD defaultBehavior.link,
        emphasis := o.behavior.emphasis.getD defaultBehavior.emphasis,
        strong := o.behavior.strong.getD defaultBehavior.strong,
        delete := o.behavior.delete.getD defaultBehavior.delete,
        inlineCode := o.behavior.inlineCode.getD defaultBehavior.inlineCode,
        code := o.behavior.code.getD defaultBehavior.code,
        image := o.behavior.image.getD defaultBehavior.image,
        imageReference := o.behavior.imageReference.getD defaultBehavior.imageReference,
        linkReference := o.behavior.linkReference.getD defaultBehavior.linkReference },
    preserveBlocks := o.preserveBlocks.getD true,
    trimWhitespace := o.trimWhitespace.getD false }

/-- `PARENT_TYPES` (part_001 line 59). -/
def isParentType (ty : String) : Bool :=
  ty = "root" ∨ ty = "paragraph" ∨ ty = "heading" ∨ ty = "blockquote" ∨ ty = "listItem"

/-- `FORMATTING_TYPES` (part_001 line 64). -/
def isFormattingType (ty : String) : Bool :=
  ty = "emphasis" ∨ ty = "strong" ∨ ty = "delete" ∨ ty = "link" ∨ ty = "linkReference"

/-- `ATOMIC_TYPES` (part_001 line 69). -/
def isAtomicType (ty : String) : Bool := ty = "break" ∨ ty = "thematicBreak"

/-- `IMAGE_TYPES` (part_001 line 74). -/
def isImageType (ty : String) : Bool := ty = "image" ∨ ty = "imageReference"

/-- `isParent` (part_001 lines 488–490): `'children' in node`. -/
def isParent (n : MNode) : Bool := n.children.isSome

mutual
/-- `getNodeLength` (part_001 lines 454–483): only `text`,
`inlineCode` and `code` values count; parents sum their children; any
other node contributes 0.  The `WeakMap` cache is semantically
transparent and elided. -/
def getNodeLength : MNode → Nat
  | .node ty v (some cs) _ _ =>
    if ty = "text" ∨ ty = "inlineCode" then (v.getD []).length
    else if ty = "code" then (v.getD []).length
    else sumNodeLength cs
  | .node ty v none _ _ =>
    if ty = "text" ∨ ty = "inlineCode" then (v.getD []).length
    else if ty = "code" then (v.getD []).length
    else 0
/-- The child-summing loop of `getNodeLength`. -/
def sumNodeLength : List MNode → Nat
  | [] => 0
  | c :: cs => getNodeLength c + sumNodeLength cs
end

/-- `getTreeLength` (part_001 lines 495–497). -/
def getTreeLength (tree : MNode) : Nat := getNodeLength tree

/-- The closure context of `sliceMarkdown`'s helpers: the validated
slice range and resolved options. -/
structure CtxB where
  start : Nat
  stop : Nat
  opts : ROptionsB
deriving Repr, DecidableEq

/-- `resolvedOptions.behavior[type]` for the five formatting types
(part_001 line 322); other types never reach this lookup. -/
def behaviorFor (b : BehaviorB) : String → String
  | "emphasis" => b.emphasis
  | "strong" => b.strong
  | "delete" => b.delete
  | "link" => b.link
  | "linkReference" => b.linkReference
  | _ => ""

/-- `resolvedOptions.behavior[node.type]` for the two image types
(part_001 line 430). -/
def imageBehaviorFor (b : BehaviorB) : String → String
  | "image" => b.image
  | "imageReference" => b.imageReference
  | _ => ""

/-- `sliceText` (part_001 lines 271–311). -/
def sliceText (n : MNode) (nodeStart nodeEnd : Nat) (ctx : CtxB) : Option MNode :=
  if nodeEnd ≤ ctx.start ∨ nodeStart ≥ ctx.stop then none
  else
    let value := n.value.getD []
    if value.length = 0 then
      -- empty text node: keep it (the very node, not a clone) when inside
      if nodeStart ≥ ctx.start ∧ nodeEnd ≤ ctx.stop then some n else none
    else
      let sliceStart := ctx.start - nodeStart
      let sliceEnd := min value.length (ctx.stop - nodeStart)
      let sliced := jsSlice value sliceStart sliceEnd
      let sliced2 :=
        if ctx.opts.trimWhitespace ∧ ¬sliced.isEmpty then
          let isAtStart := nodeStart ≥ ctx.start
          let isAtEnd := nodeEnd ≤ ctx.stop
          if ¬isAtStart ∧ ¬isAtEnd then sliced        -- spans both boundaries: no trim
          else if ¬isAtStart then trimStart sliced
          else if ¬isAtEnd then trimEnd sliced
          else sliced
        else sliced
      if sliced2.length = 0 ∧ value.length > 0 then none
      else some (cloneV n sliced2)

/-- `sliceInlineCode` (part_001 lines 357–387). -/
def sliceInlineCode (n : MNode) (nodeStart nodeEnd : Nat) (ctx : CtxB) : Option MNode :=
  let behavior := ctx.opts.behavior.inlineCode
  if nodeEnd ≤ ctx.start ∨ nodeStart ≥ ctx.stop then none
  else
    let isPart := nodeStart < ctx.start ∨ nodeEnd > ctx.stop
    if ¬isPart ∨ behavior = "preserve" then some n    -- the original node, aliased
    else if behavior = "exclude" then none
    else
      let value := n.value.getD []
      if value.length = 0 then some n                 -- aliased as well
      else
        let sliceStart := ctx.start - nodeStart
        let sliceEnd := min value.length (ctx.stop - nodeStart)
        some (cloneV n (jsSlice value sliceStart sliceEnd))

/-- `sliceCodeBlock` (part_001 lines 392–422): identical logic with
the `code` behavior. -/
def sliceCodeBlock (n : MNode) (nodeStart nodeEnd : Nat) (ctx : CtxB) : Option MNode :=
  let behavior := ctx.opts.behavior.code
  if nodeEnd ≤ ctx.start ∨ nodeStart ≥ ctx.stop then none
  else
    let isPart := nodeStart < ctx.start ∨ nodeEnd > ctx.stop
    if ¬isPart ∨ behavior = "preserve" then some n
    else if behavior = "exclude" then none
    else
      let value := n.value.getD []
      if value.length = 0 then some n
      else
        let sliceStart := ctx.start - nodeStart
        let sliceEnd := min value.length (ctx.stop - nodeStart)
        some (cloneV n (jsSlice value sliceStart sliceEnd))

/-- `sliceImageNode` (part_001 lines 427–435). -/
def sliceImageNode (n : MNode) (nodeStart nodeEnd : Nat) (ctx : CtxB) : Option MNode :=
  if nodeEnd ≤ ctx.start ∨ nodeStart ≥ ctx.stop then none
  else
    let behavior := imageBehaviorFor ctx.opts.behavior n.ty
    let isPart := nodeStart < ctx.start ∨ nodeEnd > ctx.stop
    if ¬isPart ∨ behavior = "preserve" then some n else none

/-- `sliceAtomicNode` (part_001 lines 440–443). -/
def sliceAtomicNode (n : MNode) (nodeStart nodeEnd : Nat) (ctx : CtxB) : Option MNode :=
  if nodeEnd > ctx.start ∧ nodeStart < ctx.stop then some n else none

/-- The type of the recursive child-slicer threaded through the
part_001 helpers; `slice` ties the knot with a fuel counter. -/
abbrev RecB := MNode → Nat → CtxB → SliceRes

/-- The child loop of `sliceParent` (part_001 lines 236–246), with the
running position made explicit. -/
def sliceKids (recur : RecB) : List MNode → Nat → CtxB → List MNode
  | [], _, _ => []
  | c :: rest, pos, ctx =>
    let r := recur c pos ctx
    r.toList ++ sliceKids recur rest (pos + getNodeLength c) ctx

/-- `sliceParent` (part_001 lines 228–257). -/
def sliceParent (recur : RecB) (n : MNode) (nodeStart : Nat) (ctx : CtxB) :
    Option MNode :=
  let slicedChildren := sliceKids recur (n.children.getD []) nodeStart ctx
  if slicedChildren.isEmpty ∧ ¬ctx.opts.preserveBlocks then none
  else some (cloneC n slicedChildren)

/-- `sliceList` (part_001 lines 262–266): a list with no remaining
children is dropped. -/
def sliceList (recur : RecB) (n : MNode) (nodeStart : Nat) (ctx : CtxB) :
    Option MNode :=
  match sliceParent recur n nodeStart ctx with
  | some p => if (p.children.getD []).length ≠ 0 then some p else none
  | none => none

/-- `sliceFormattingNode` (part_001 lines 316–352). -/
def sliceFormattingNode (recur : RecB) (n : MNode) (nodeStart nodeEnd : Nat)
    (ctx : CtxB) : SliceRes :=
  let behavior := behaviorFor ctx.opts.behavior n.ty
  if ¬(nodeStart < ctx.stop ∧ nodeEnd > ctx.start) then .nothing
  else
    let isPart := nodeStart < ctx.start ∨ nodeEnd > ctx.stop
    if ¬isPart ∨ behavior = "preserve" ∨ behavior = "content" then
      liftO (sliceParent recur n nodeStart ctx)
    else if behavior = "exclude" then .nothing
    else if behavior = "trim" then
      match sliceParent recur n nodeStart ctx with
      | some p => .many (p.children.getD [])
      | none => .nothing
    else liftO (sliceParent recur n nodeStart ctx)

/-- `sliceByType` (part_001 lines 173–223). -/
def sliceByType (recur : RecB) (n : MNode) (nodeStart nodeEnd : Nat) (ctx : CtxB) :
    SliceRes :=
  if n.ty = "text" then liftO (sliceText n nodeStart nodeEnd ctx)
  else if isParentType n.ty then liftO (sliceParent recur n nodeStart ctx)
  else if n.ty = "list" then liftO (sliceList recur n nodeStart ctx)
  else if isFormattingType n.ty then sliceFormattingNode recur n nodeStart nodeEnd ctx
  else if n.ty = "inlineCode" then liftO (sliceInlineCode n nodeStart nodeEnd ctx)
  else if n.ty = "code" then liftO (sliceCodeBlock n nodeStart nodeEnd ctx)
  else if isImageType n.ty then liftO (sliceImageNode n nodeStart nodeEnd ctx)
  else if isAtomicType n.ty then liftO (sliceAtomicNode n nodeStart nodeEnd ctx)
  else if isParent n then liftO (sliceParent recur n nodeStart ctx)
  else .nothing

/-- The inner `slice` closure (part_001 lines 153–168): the mutable
`position` is passed in as `pos`; the caller advances it by the
node's full length.  One unit of fuel pays for one tree level. -/
def slice : Nat → MNode → Nat → CtxB → SliceRes
  | 0, _, _, _ => .nothing
  | fuel + 1, n, pos, ctx =>
    let nodeLength := getNodeLength n
    let nodeEnd := pos + nodeLength
    if nodeEnd ≤ ctx.start ∨ pos ≥ ctx.stop then .nothing
    else sliceByType (slice fuel) n pos nodeEnd ctx

/-- `sliceMarkdown` (part_001 lines 90–448).  Positions are rationals
so that the `Number.isInteger` validation is expressible; `throw`
becomes `Except.error`.  The result is the raw value the source
returns: `null`, a node, or (for a root whose policy unwraps it) an
array. -/
def sliceMarkdown (tree : Option MNode) (start : ℚ) (stop : Option ℚ)
    (options : SliceOptionsB) : Except String SliceRes :=
  match tree with
  | none => .ok .nothing
  | some t =>
    let treeLength := getNodeLength t
    if treeLength = 0 then
      .ok (if start = 0 then .one t else .nothing)    -- the tree itself, aliased
    else if start < 0 then .error "Start position must be non-negative"
    else if start.den ≠ 1 then .error "Start position must be an integer"
    else
      let normalizedEnd : ℚ := match stop with | some e => e | none => (treeLength : ℚ)
      match stop with
      | some e =>
        if e < 0 then .error "End position must be non-negative"
        else if e.den ≠ 1 then .error "End position must be an integer"
        else if e ≤ start then .error "End position must be greater than start"
        else
          if start ≥ (treeLength : ℚ) then .ok .nothing
          else
            let effectiveEnd := min normalizedEnd (treeLength : ℚ)
            if start ≥ effectiveEnd then .ok .nothing
            else
              let ctx : CtxB :=
                { start := start.num.toNat, stop := effectiveEnd.num.toNat,
                  opts := resolveOptions options }
              .ok (slice (fuelFor t) t 0 ctx)
      | none =>
        if start ≥ (treeLength : ℚ) then .ok .nothing
        else
          let effectiveEnd := min normalizedEnd (treeLength : ℚ)
          if start ≥ effectiveEnd then .ok .nothing
          else
            let ctx : CtxB :=
              { start := start.num.toNat, stop := effectiveEnd.num.toNat,
                opts := resolveOptions options }
            .ok (slice (fuelFor t) t 0 ctx)

end VB

deriving instance DecidableEq for Except

/-- Whether a `sliceMarkdown` call raised. -/
def isErr : Except String SliceRes → Bool
  | .error _ => true
  | .ok _ => false

/-!
Specification-side definitions, used to state the claims.
-/

/-- Worker for `specOcc`: the occurrence indices `j` with
`i ≤ j < i + rem` at which the needle matches, in ascending order. -/
def specOccGo (v n : Str) : Nat → Nat → List Nat
  | 0, _ => []
  | rem + 1, i => (if matchAt v n i then [i] else []) ++ specOccGo v n rem (i + 1)

/-- Specification of substring search inside one leaf value: every
index `j < v.length` at which the needle occurs, in ascending
order. -/
def specOcc (v n : Str) : List Nat := specOccGo v n v.length 0

mutual
/-- The leaf values `findText` searches, in document order: the
values of `text`, `code` and `inlineCode` nodes. -/
def countedVals : MNode → List Str
  | .node ty v c _ _ =>
    if ty = "text" ∨ ty = "code" ∨ ty = "inlineCode" then [v.getD []]
    else
      match c with
      | some cs => countedValsKids cs
      | none => []
/-- `countedVals` over a child list. -/
def countedValsKids : List MNode → List Str
  | [] => []
  | c :: cs => countedVals c ++ countedValsKids cs
end

/-- Total character length of a list of leaf values. -/
def totalLen (leaves : List Str) : Nat := (leaves.map List.length).sum

/-- Specification of document-order text search: for each searched
leaf in order, all in-leaf occurrence offsets shifted by the leaf's
document offset. -/
def specPositions : List Str → Str → Nat → List Nat
  | [], _, _ => []
  | v :: rest, n, off =>
    ((specOcc v n).map (off + ·)) ++ specPositions rest n (off + v.length)

/-- Specification of `findText`: all document-order starting offsets
of in-leaf occurrences of the needle. -/
def specFind (t : MNode) (n : Str) : List Nat := specPositions (countedVals t) n 0

/-- Trim the left end when `l` and the right end when `r`. -/
def condTrim (l r : Bool) (v : Str) : Str :=
  (if l then trimStart else id) ((if r then trimEnd else id) v)

/-- The value claim C2 predicts for a partially overlapping leaf under
the trim boundary policy, following the claim's words: slice to the
overlap, then remove leading whitespace exactly when the start side
was cut (`ns < start`) and trailing whitespace exactly when the end
side was cut (`ne > stop`). -/
def claimTrimC2 (v : Str) (ns ne start stop : Nat) : Str :=
  condTrim (decide (ns < start)) (decide (ne > stop))
    (jsSlice v (start - ns) (min v.length (stop - ns)))

mutual
/-- Every node of the tree is a fresh allocation (identity tag 0). -/
def treeFresh : MNode → Bool
  | .node _ _ (some cs) _ i => i == 0 && listFresh cs
  | .node _ _ none _ i => i == 0
/-- `treeFresh` over a child list. -/
def listFresh : List MNode → Bool
  | [] => true
  | c :: cs => treeFresh c && listFresh cs
end

/-- `treeFresh` over a `Node | Node[] | null` result. -/
def resFresh : SliceRes → Bool
  | .nothing => true
  | .one n => treeFresh n
  | .many ns => listFresh ns

mutual
/-- Well-formed mdast tree: a node with a truthy `value` is a leaf
(carries no `children` field), recursively. -/
def wfNode : MNode → Bool
  | .node _ (some (_ :: _)) (some _) _ _ => false
  | .node _ _ (some cs) _ _ => wfList cs
  | .node _ _ none _ _ => true
/-- `wfNode` over a child list. -/
def wfList : List MNode → Bool
  | [] => true
  | c :: cs => wfNode c && wfList cs
end

/-- `wfNode` for an optional tree. -/
def wfOpt : Option MNode → Bool
  | none => true
  | some t => wfNode t

/-- A rebuilt container result that is either dropped or has at least
one child. -/
def optNoEmptyKids : Option MNode → Bool
  | none => true
  | some p => !(p.children.getD []).isEmpty

/-!
Concrete fixtures used by the claim theorems.
-/

/-- The seed tree of the claim C1 policy matrix. -/
def c1tree : MNode := mkPara [mkText "Hello ", mkEmph [mkText "world"], mkText " test"]

/-- Context for the C2 counterexample: range `[1, 4)` under the
default part_000 configuration. -/
def c2ctx : VA.CtxA := ⟨1, 4, VA.resolveConfig {}⟩

/-- C3 counterexample tree. -/
def c3para : MNode := mkPara [mkText "abc"]

/-- C3 counterexample configuration: exclude partially overlapping
text leaves. -/
def c3cfg : VA.SliceConfigA := { partNodes := some { text := some "exclude-full" } }

/-- C3 fixture for the part_001 `preserveBlocks` toggle. -/
def c3paraIC : MNode := mkPara [mkIC "abc"]

/-- C6 counterexample tree: an empty leaf sitting exactly at the
requested start. -/
def c6tree : MNode := mkPara [mkTextL [], mkText "ab"]

/-- C7 counterexample input: an `inlineCode` leaf with identity tag 7,
fully inside the requested range. -/
def c7alias : MNode := .node "inlineCode" (some "ab".toList) none [] 7

/-- C7 witness input: a tree whose nodes carry nonzero identity
tags. -/
def c7tree : MNode :=
  .node "paragraph" none (some [.node "text" (some "ab".toList) none [] 6]) [] 5

/-- C8 counterexample node: an `html` node with a value. -/
def c8html : MNode := .node "html" (some "abcd".toList) none [] 0

/-- C10 witness tree. -/
def c10tree : MNode := mkPara [mkText "hello world"]

/-- C10 witness configuration: unwrap partially overlapping blocks. -/
def c10cfg : VA.SliceConfigA := { partNodes := some { blocks := some "unwrap" } }

/-- The empty info state passed by part_000's `slice`. -/
def info0 : VA.InfoA := ⟨false, []⟩

/-!
Helper lemmas.
-/

/-- Strong induction on the size of an `MNode`. -/
theorem mnode_strong_ind (P : MNode → Prop)
    (h : ∀ n, (∀ m, sizeOf m < sizeOf n → P m) → P n) : ∀ n, P n := by
  have H : ∀ k, ∀ n : MNode, sizeOf n < k → P n := by
    intro k
    induction k with
    | zero => intro n hn; omega
    | succ k ih => intro n hn; exact h n (fun m hm => ih m (by omega))
  exact fun n => H (sizeOf n + 1) n (by omega)

/-- `VA.sumLength` is the sum of the lengths of the children. -/
theorem sumLength_eq_map_sum : ∀ cs : List MNode,
    VA.sumLength cs = (cs.map (fun c => VA.length (some c))).sum := by
  intro cs
  induction cs with
  | nil => rfl
  | cons c cs ih => simp [VA.sumLength, VA.length, VA.getLength, ih]

/-- `VB.sumNodeLength` is the sum of the lengths of the children. -/
theorem sumNodeLength_eq_map_sum : ∀ cs : List MNode,
    VB.sumNodeLength cs = (cs.map VB.getNodeLength).sum := by
  intro cs
  induction cs with
  | nil => rfl
  | cons c cs ih => simp [VB.sumNodeLength, ih]

/-!
Claim theorems.
-/

/-- C1: for the tree `paragraph[text("Hello "), emphasis[text("world")],
text(" test")]` (content length 16) sliced over `[4, 10)` by the
strict implementation, the `emphasis` behavior `"trim"` yields
`paragraph[text("o "), text("worl")]`, `"exclude"` yields
`paragraph[text("o ")]`, and `"content"` as well as `"preserve"`
yield `paragraph[text("o "), emphasis[text("worl")]]`. -/
theorem C1_policy_matrix :
    VB.getTreeLength c1tree = 16
  ∧ VB.sliceMarkdown (some c1tree) 4 (some 10) { behavior := { emphasis := some "trim" } }
      = .ok (.one (mkPara [mkText "o ", mkText "worl"]))
  ∧ VB.sliceMarkdown (some c1tree) 4 (some 10) { behavior := { emphasis := some "exclude" } }
      = .ok (.one (mkPara [mkText "o "]))
  ∧ VB.sliceMarkdown (some c1tree) 4 (some 10) { behavior := { emphasis := some "content" } }
      = .ok (.one (mkPara [mkText "o ", mkEmph [mkText "worl"]]))
  ∧ VB.sliceMarkdown (some c1tree) 4 (some 10) { behavior := { emphasis := some "preserve" } }
      = .ok (.one (mkPara [mkText "o ", mkEmph [mkText "worl"]])) := by
  refine ⟨?_, ?_, ?_, ?_, ?_⟩ <;> decide

/-- C2 counterexample: the leaf `text(" ab")` spans `[2, 5)`; sliced
over `[1, 4)` under `truncate` with the `trim` boundary policy its
start side is NOT cut (`2 > 1`), so by the claim only the trailing
side may be trimmed and the emitted value should be `" a"` — but
`sliceNodeWithValue` trims whenever the node edge differs from the
slice edge and emits `"a"`. -/
theorem C2_counterexample :
    (VA.sliceNodeWithValue (mkText " ab") 2 c2ctx info0).1 = some (mkText "a")
  ∧ claimTrimC2 (" ab".toList) 2 5 1 4 = " a".toList
  ∧ (VA.sliceNodeWithValue (mkText " ab") 2 c2ctx info0).1
      ≠ some (mkTextL (claimTrimC2 (" ab".toList) 2 5 1 4)) := by
  refine ⟨?_, ?_, ?_⟩ <;> decide

/-- C3 counterexample: slicing `paragraph[text("abc")]` over `[1, 2)`
with partially overlapping text excluded leaves the paragraph with
zero rebuilt children; the claim says a non-list container is by
default returned with an empty child list, but part_000's
`sliceParent` unconditionally drops every empty container, so the
metadata slice yields `node: null`, not `paragraph[]`. -/
theorem C3_counterexample :
    (VA.slice (some c3para) 1 (some 2) c3cfg).node = none
  ∧ (VA.slice (some c3para) 1 (some 2) c3cfg).node ≠ some (mkPara []) := by
  refine ⟨?_, ?_⟩ <;> decide

/-- C5 counterexample: for a tree of content length 0 the strict
`sliceMarkdown` returns before any validation, so a negative start
does not raise — the claim says it raises for every input tree. -/
theorem C5_counterexample :
    VB.sliceMarkdown (some (mkTextL [])) (-5) (some 3) {} = .ok .nothing
  ∧ isErr (VB.sliceMarkdown (some (mkTextL [])) (-5) (some 3) {}) = false := by
  refine ⟨?_, ?_⟩ <;> decide

/-- C6 counterexample: in `paragraph[text(""), text("ab")]` the
zero-length leaf spans `[0, 0)`, which is fully inside the requested
range `[0, 2)` (`ns ≥ start ∧ ne ≤ end`); the claim says such a leaf
is preserved as an empty leaf, but the overlap gate (`nodeEnd <=
start`) classifies it as outside and drops it. -/
theorem C6_counterexample :
    VB.sliceMarkdown (some c6tree) 0 (some 2) {} = .ok (.one (mkPara [mkText "ab"]))
  ∧ VB.sliceMarkdown (some c6tree) 0 (some 2) {}
      ≠ .ok (.one (.node "paragraph" none (some [mkTextL [], mkText "ab"]) [] 0)) := by
  refine ⟨?_, ?_⟩ <;> decide

/-- C7 counterexample: `sliceMarkdown` on an `inlineCode` leaf fully
inside the range returns the input node object itself (identity tag 7
preserved), not a fresh shallow clone — refuting the claim that every
emitted node is a fresh clone. -/
theorem C7_counterexample :
    VB.sliceMarkdown (some c7alias) 0 (some 2) {} = .ok (.one c7alias)
  ∧ c7alias.idTag = 7
  ∧ treeFresh c7alias = false := by
  refine ⟨?_, ?_, ?_⟩ <;> decide

/-- C8 counterexample: part_000's `length` counts the value of ANY
node with a truthy `value` field — an `html` node, which is not a
character-bearing type (`text`/`inlineCode`/`code`), reports length 4
where the claim requires 0 (part_001's `getNodeLength` does return
0 for it). -/
theorem C8_counterexample :
    VA.length (some c8html) = 4
  ∧ VA.length (some c8html) ≠ 0
  ∧ VB.getNodeLength c8html = 0 := by
  refine ⟨?_, ?_, ?_⟩ <;> decide

/-- C4: the metadata-returning `slice` never raises (it is a total
function into `SliceResultA`); a null tree gives the all-zero result
for every configuration; a negative start gives the same all-zero
result for every tree; and a range that is empty after clamping
(`start >= actualEnd`) gives `node: null` with the clamped boundaries
as a normal outcome. -/
theorem C4_null_and_invalid :
    (∀ (s : Int) (e : Option Int) (c : VA.SliceConfigA), VA.slice none s e c = VA.zeroResult)
  ∧ (∀ (t : Option MNode) (s : Int) (e : Option Int) (c : VA.SliceConfigA),
      s < 0 → VA.slice t s e c = VA.zeroResult)
  ∧ (∀ (t : MNode) (s : Int) (e : Option Int) (c : VA.SliceConfigA),
      0 ≤ s → VA.actualEndOf (VA.getLength (some t)) e ≤ s →
      VA.slice (some t) s e c =
        { node := none, bStart := s, bEnd := VA.actualEndOf (VA.getLength (some t)) e,
          originalLength := VA.getLength (some t), slicedLength := 0,
          hasPartNodes := false, modifiedNodeTypes := [] }) := by
  refine ⟨fun s e c => rfl, fun t s e c hs => ?_, fun t s e c hs h2 => ?_⟩
  · cases t with
    | none => rfl
    | some t => simp [VA.slice, hs]
  · have hneg : ¬ s < 0 := not_lt.mpr hs
    simp [VA.slice, hneg, ge_iff_le, h2]

/-- C4 witness: concrete instances of the negative-start and
clamped-empty-range conjuncts. -/
theorem C4_witness :
    ((-3 : Int) < 0 ∧ VA.slice (some (mkText "hi")) (-3) none {} = VA.zeroResult)
  ∧ ((0 : Int) ≤ 5 ∧ VA.actualEndOf (VA.getLength (some (mkText "hi"))) (some 9) ≤ 5
      ∧ VA.slice (some (mkText "hi")) 5 (some 9) {} =
        { node := none, bStart := 5,
          bEnd := VA.actualEndOf (VA.getLength (some (mkText "hi"))) (some 9),
          originalLength := VA.getLength (some (mkText "hi")), slicedLength := 0,
          hasPartNodes := false, modifiedNodeTypes := [] }) :=
  ⟨⟨by decide, C4_null_and_invalid.2.1 (some (mkText "hi")) (-3) none {} (by decide)⟩,
   ⟨by decide, by decide,
    C4_null_and_invalid.2.2 (mkText "hi") 5 (some 9) {} (by decide) (by decide)⟩⟩

/-- C8 amended: `length` sums children for containers without a
truthy value and handles a null tree as 0; but the two length oracles
disagree on which leaves bear characters — part_000's counts the
value of ANY node with a `value` field (so a non-`text`/`inlineCode`/
`code` node such as `html` still contributes its value length), while
part_001's counts only the `text`/`inlineCode`/`code` types and gives
every other leaf length 0. -/
theorem C8_amended :
    VA.length none = 0
  ∧ (∀ ty (v : Option Str) cs attrs i, v = none ∨ v = some [] →
      VA.length (some (.node ty v (some cs) attrs i))
        = (cs.map (fun c => VA.length (some c))).sum)
  ∧ (∀ ty (v : Str) attrs i, VA.length (some (.node ty (some v) none attrs i)) = v.length)
  ∧ (∀ ty (v : Option Str) attrs i, ¬(ty = "text" ∨ ty = "inlineCode" ∨ ty = "code") →
      VB.getNodeLength (.node ty v none attrs i) = 0)
  ∧ (∀ ty (v : Option Str) cs attrs i, ¬(ty = "text" ∨ ty = "inlineCode" ∨ ty = "code") →
      VB.getNodeLength (.node ty v (some cs) attrs i) = (cs.map VB.getNodeLength).sum)
  ∧ (∀ ty (v : Str) (c : Option (List MNode)) attrs i,
      ty = "text" ∨ ty = "inlineCode" ∨ ty = "code" →
      VB.getNodeLength (.node ty (some v) c attrs i) = v.length) := by
  refine ⟨rfl, ?_, ?_, ?_, ?_, ?_⟩
  · intro ty v cs attrs i hv
    rcases hv with rfl | rfl
    · rw [show VA.length (some (MNode.node ty none (some cs) attrs i))
          = VA.sumLength cs from rfl, sumLength_eq_map_sum]
    · rw [show VA.length (some (MNode.node ty (some []) (some cs) attrs i))
          = VA.sumLength cs from rfl, sumLength_eq_map_sum]
  · intro ty v attrs i
    cases v <;> rfl
  · intro ty v attrs i h
    have h1 : ¬(ty = "text" ∨ ty = "inlineCode") := by tauto
    have h2 : ¬(ty = "code") := by tauto
    simp [VB.getNodeLength, h1, h2]
  · intro ty v cs attrs i h
    have h1 : ¬(ty = "text" ∨ ty = "inlineCode") := by tauto
    have h2 : ¬(ty = "code") := by tauto
    simp [VB.getNodeLength, h1, h2, sumNodeLength_eq_map_sum]
  · intro ty v c attrs i h
    rcases h with rfl | rfl | rfl <;> cases c <;> simp [VB.getNodeLength]

/-- C8 witness: the part_001 container conjunct at a concrete
paragraph. -/
theorem C8_amended_witness :
    ¬("paragraph" = "text" ∨ "paragraph" = "inlineCode" ∨ "paragraph" = "code")
  ∧ VB.getNodeLength (.node "paragraph" none (some [mkText "ab", mkIC "c"]) [] 0)
      = ([mkText "ab", mkIC "c"].map VB.getNodeLength).sum :=
  ⟨by decide,
   C8_amended.2.2.2.2.1 "paragraph" none [mkText "ab", mkIC "c"] [] 0 (by decide)⟩

/-- The final step of part_000's `sliceParent` never yields a
container with an empty child array. -/
theorem optNoEmptyKids_ite (fc : List MNode) (n : MNode) (x y : VA.InfoA) :
    optNoEmptyKids ((if fc.isEmpty then ((none : Option MNode), x)
      else (some (cloneC n fc), y)).1) = true := by
  by_cases h : fc.isEmpty
  · simp [h, optNoEmptyKids]
  · simp [h, optNoEmptyKids, cloneC, MNode.children]

/-- C3 amended: lists are always pruned when empty (in part_001 via
`sliceList`, and in part_000 because `sliceParent` unconditionally
drops EVERY container whose rebuilt child array is empty — so no
container is by default returned with an empty child list there);
only part_001's `sliceParent` keeps empty containers, by default
(`preserveBlocks` true) and drops them when the toggle is false. -/
theorem C3_empty_container_pruning :
    (∀ (recur : VA.RecA) (n : MNode) (ns : Nat) (ctx : VA.CtxA) (info : VA.InfoA),
      optNoEmptyKids ((VA.sliceParent recur n ns ctx info).1) = true)
  ∧ (∀ (recur : VB.RecB) (n : MNode) (ns : Nat) (ctx : VB.CtxB),
      optNoEmptyKids (VB.sliceList recur n ns ctx) = true)
  ∧ VB.sliceMarkdown (some c3paraIC) 1 (some 2) { behavior := { inlineCode := some "exclude" } }
      = .ok (.one (mkPara []))
  ∧ VB.sliceMarkdown (some c3paraIC) 1 (some 2)
      { behavior := { inlineCode := some "exclude" }, preserveBlocks := some false }
      = .ok .nothing := by
  refine ⟨?_, ?_, by decide, by decide⟩
  · intro recur n ns ctx info
    simp only [VA.sliceParent]
    exact optNoEmptyKids_ite _ n _ _
  · intro recur n ns ctx
    simp only [VB.sliceList]
    cases VB.sliceParent recur n ns ctx with
    | none => rfl
    | some p =>
      show optNoEmptyKids (if (p.children.getD []).length ≠ 0 then some p else none) = true
      by_cases hl : (p.children.getD []).length ≠ 0
      · rw [if_pos hl]
        cases hc : p.children.getD [] with
        | nil => exact absurd (by simp [hc]) hl
        | cons a l => simp [optNoEmptyKids, hc]
      · rw [if_neg hl]
        rfl

/-- C10: whenever part_000's root-level resolution of the tree yields
an array of nodes (a root whose policy unwraps it), `slice` reports
`node: null` with `slicedLength` 0, discarding the unwrapped children
entirely. -/
theorem C10_root_unwrap_null (t : MNode) (s : Int) (e : Option Int) (cfg : VA.SliceConfigA)
    (ns : List MNode) (inf : VA.InfoA)
    (h0 : 0 ≤ s)
    (h1 : s < VA.actualEndOf (VA.getLength (some t)) e)
    (h2 : VA.sliceNode (fuelFor t) t 0
        ⟨s.toNat, (VA.actualEndOf (VA.getLength (some t)) e).toNat, VA.resolveConfig cfg⟩
        info0 = (.many ns, inf)) :
    (VA.slice (some t) s e cfg).node = none
  ∧ (VA.slice (some t) s e cfg).slicedLength = 0 := by
  have hneg : ¬ s < 0 := not_lt.mpr h0
  have hge : ¬ VA.actualEndOf (VA.getLength (some t)) e ≤ s := not_le.mpr h1
  constructor
  all_goals
    simp [VA.slice, hneg, ge_iff_le, hge, info0] at h2 ⊢
    rw [h2]
    try rfl

/-- C10 witness: `paragraph[text("hello world")]` sliced `[2, 8)` with
`blocks: "unwrap"` resolves at the root to an array, and `slice`
returns `node: null`, `slicedLength` 0. -/
theorem C10_witness :
    ((0 : Int) ≤ 2)
  ∧ (2 < VA.actualEndOf (VA.getLength (some c10tree)) (some 8))
  ∧ VA.sliceNode (fuelFor c10tree) c10tree 0
      ⟨(2 : Int).toNat, (VA.actualEndOf (VA.getLength (some c10tree)) (some 8)).toNat,
        VA.resolveConfig c10cfg⟩ info0
      = (.many [mkText "llo wo"], ⟨true, ["paragraph", "text"]⟩)
  ∧ (VA.slice (some c10tree) 2 (some 8) c10cfg).node = none
  ∧ (VA.slice (some c10tree) 2 (some 8) c10cfg).slicedLength = 0 :=
  ⟨by decide, by decide, by decide,
   C10_root_unwrap_null c10tree 2 (some 8) c10cfg [mkText "llo wo"]
     ⟨true, ["paragraph", "text"]⟩ (by decide) (by decide) (by decide)⟩

/-- C5 amended: the strict `sliceMarkdown` raises for a negative or
non-integer start, a negative or non-integer provided end, or a
provided end with `end <= start` — but only for input trees of
NONZERO content length: a zero-length tree returns early (the tree
itself when `start === 0`, otherwise `null`) before any validation
runs, and the tree's length is computed before validation.  With
valid parameters the post-validation geometry issue
`start >= treeLength` resolves to a null result, not an error. -/
theorem C5_strict_validation :
    (∀ (t : MNode) (s : ℚ) (eO : Option ℚ) (opts : VB.SliceOptionsB),
      VB.getNodeLength t ≠ 0 →
      (s < 0 ∨ s.den ≠ 1 ∨ ∃ e, eO = some e ∧ (e < 0 ∨ e.den ≠ 1 ∨ e ≤ s)) →
      isErr (VB.sliceMarkdown (some t) s eO opts) = true)
  ∧ (∀ (t : MNode) (s : ℚ) (eO : Option ℚ) (opts : VB.SliceOptionsB),
      VB.getNodeLength t ≠ 0 →
      0 ≤ s → s.den = 1 →
      (∀ e, eO = some e → 0 ≤ e ∧ e.den = 1 ∧ s < e) →
      (VB.getNodeLength t : ℚ) ≤ s →
      VB.sliceMarkdown (some t) s eO opts = .ok .nothing) := by
  constructor
  · intro t s eO opts hlen hbad
    cases eO with
    | none =>
      rcases hbad with hb | hb | ⟨e, he, _⟩
      · simp [VB.sliceMarkdown, hlen, hb, isErr]
      · by_cases h1 : s < 0 <;> simp [VB.sliceMarkdown, hlen, h1, hb, isErr]
      · exact Option.noConfusion he
    | some e =>
      by_cases h1 : s < 0
      · simp [VB.sliceMarkdown, hlen, h1, isErr]
      · by_cases h2 : s.den = 1
        · rcases hbad with hb | hb | ⟨e', he', hb⟩
          · exact absurd hb h1
          · exact absurd h2 hb
          · injection he' with he''
            subst he''
            rcases hb with hb | hb | hb <;>
              simp [VB.sliceMarkdown, hlen, h1, h2, hb, isErr] <;>
              split_ifs <;> rfl
        · simp [VB.sliceMarkdown, hlen, h1, h2, isErr]
  · intro t s eO opts hlen h0 hden hends hge
    cases eO with
    | none =>
      simp [VB.sliceMarkdown, hlen, not_lt.mpr h0, hden, ge_iff_le, hge]
    | some e =>
      obtain ⟨he0, hede, hlt⟩ := hends e rfl
      simp [VB.sliceMarkdown, hlen, not_lt.mpr h0, hden, not_lt.mpr he0, hede,
        not_le.mpr hlt, ge_iff_le, hge]

/-- C5 witness: a tree of length 5 — a negative start raises, while a
start beyond the content length resolves to a null result. -/
theorem C5_witness :
    (VB.getNodeLength (mkText "Hello") ≠ 0
      ∧ ((-1 : ℚ) < 0)
      ∧ isErr (VB.sliceMarkdown (some (mkText "Hello")) (-1) (some 3) {}) = true)
  ∧ (VB.getNodeLength (mkText "Hello") ≠ 0
      ∧ (0 : ℚ) ≤ 10 ∧ (10 : ℚ).den = 1
      ∧ (VB.getNodeLength (mkText "Hello") : ℚ) ≤ 10
      ∧ VB.sliceMarkdown (some (mkText "Hello")) 10 none {} = .ok .nothing) :=
  ⟨⟨by decide, by decide,
    C5_strict_validation.1 (mkText "Hello") (-1) (some 3) {} (by decide)
      (Or.inl (by decide))⟩,
   ⟨by decide, by decide, by decide, by decide,
    C5_strict_validation.2 (mkText "Hello") 10 none {} (by decide) (by decide)
      (by decide) (fun e he => Option.noConfusion he) (by decide)⟩⟩

/-- A leaf overlapping a nonempty range produces a nonempty raw
slice. -/
theorem jsSlice_overlap_ne_nil (v : Str) (ns start stop : Nat)
    (hv : v ≠ []) (hss : start < stop) (h1 : ns < stop) (h2 : start < ns + v.length) :
    jsSlice v (start - ns) (min v.length (stop - ns)) ≠ [] := by
  intro h
  have hlen := congrArg List.length h
  have hv' : 0 < v.length := List.length_pos.mpr hv
  simp only [jsSlice, List.length_take, List.length_drop, List.length_nil] at hlen
  omega

/-- The boundary-trim branching of part_000's `sliceNodeWithValue` is
`condTrim` with the edge-difference flags. -/
theorem condTrim_eq_branches (l r : Prop) [Decidable l] [Decidable r] (v : Str) :
    (if l ∧ r then jsTrim v else if l then trimStart v else if r then trimEnd v else v)
      = condTrim (decide l) (decide r) v := by
  by_cases hl : l <;> by_cases hr : r <;> simp [condTrim, jsTrim, hl, hr]

/-- Final empty-result guard of part_001's `sliceText`, rephrased as
an emptiness test on the processed value. -/
theorem emptyGuard_eq (n : MNode) (T v : Str) (hv : v ≠ []) :
    (if T.length = 0 ∧ 0 < v.length then (none : Option MNode) else some (cloneV n T))
      = if T = [] then none else some (cloneV n T) := by
  by_cases hT : T = []
  · simp [hT, List.length_pos.mpr hv]
  · simp [hT, List.length_eq_zero]

/-- C2 amended: for a partially overlapping character-bearing leaf
under `truncate`, both implementations emit
`value.slice(max(0, start - ns), min(len, end - ns))`; but the trim
boundary policy differs from the claim on both sides: part_000 trims
the leading end exactly when `ns ≠ start` and the trailing end exactly
when `ne ≠ end` (so a node lying strictly inside the range on one
side is still trimmed there), while part_001 trims only when exactly
one side is cut — when both sides are cut it trims neither. -/
theorem C2_leaf_truncation :
    (∀ (n : MNode) (ns : Nat) (ctx : VA.CtxA) (info : VA.InfoA) (v : Str),
      n.value = some v → v ≠ [] →
      ctx.start < ctx.stop → ns < ctx.stop → ctx.start < ns + v.length →
      ¬(ns ≥ ctx.start ∧ ns + v.length ≤ ctx.stop) →
      VA.behaviorForValue ctx.config.partNodes n.ty ≠ some "include-full" →
      VA.behaviorForValue ctx.config.partNodes n.ty ≠ some "exclude-full" →
      ((n.ty = "inlineCode" ∨ n.ty = "code") ∨
        (ctx.config.textHandling.boundaries ≠ some "trim" ∧
         ctx.config.textHandling.boundaries ≠ some "normalize")) →
      (VA.sliceNodeWithValue n ns ctx info).1
        = some (cloneV n (jsSlice v (ctx.start - ns) (min v.length (ctx.stop - ns)))))
  ∧ (∀ (n : MNode) (ns : Nat) (ctx : VA.CtxA) (info : VA.InfoA) (v : Str),
      n.value = some v → v ≠ [] →
      ctx.start < ctx.stop → ns < ctx.stop → ctx.start < ns + v.length →
      ¬(ns ≥ ctx.start ∧ ns + v.length ≤ ctx.stop) →
      VA.behaviorForValue ctx.config.partNodes n.ty ≠ some "include-full" →
      VA.behaviorForValue ctx.config.partNodes n.ty ≠ some "exclude-full" →
      ¬(n.ty = "inlineCode" ∨ n.ty = "code") →
      ctx.config.textHandling.boundaries = some "trim" →
      (VA.sliceNodeWithValue n ns ctx info).1
        = (let t := condTrim (decide (¬ns = ctx.start)) (decide (¬ns + v.length = ctx.stop))
            (jsSlice v (ctx.start - ns) (min v.length (ctx.stop - ns)));
          if t.length > 0 then some (cloneV n t) else none))
  ∧ (∀ (n : MNode) (ns : Nat) (ctx : VB.CtxB) (v : Str),
      n.value = some v → v ≠ [] →
      ctx.start < ctx.stop → ns < ctx.stop → ctx.start < ns + v.length →
      ctx.opts.trimWhitespace = false →
      VB.sliceText n ns (ns + v.length) ctx
        = some (cloneV n (jsSlice v (ctx.start - ns) (min v.length (ctx.stop - ns)))))
  ∧ (∀ (n : MNode) (ns : Nat) (ctx : VB.CtxB) (v : Str),
      n.value = some v → v ≠ [] →
      ctx.start < ctx.stop → ns < ctx.stop → ctx.start < ns + v.length →
      ctx.opts.trimWhitespace = true →
      VB.sliceText n ns (ns + v.length) ctx
        = (let raw := jsSlice v (ctx.start - ns) (min v.length (ctx.stop - ns));
          let t := if ns < ctx.start ∧ ctx.stop < ns + v.length then raw
            else if ns < ctx.start then trimStart raw
            else if ctx.stop < ns + v.length then trimEnd raw
            else raw;
          if t = [] then none else some (cloneV n t))) := by
  refine ⟨?_, ?_, ?_, ?_⟩
  · intro n ns ctx info v hval hv hss h1 h2 hp hbi hbe hcase
    have hc1 : ¬(ns + v.length ≤ ctx.start ∨ ns ≥ ctx.stop) := by omega
    have hne := jsSlice_overlap_ne_nil v ns ctx.start ctx.stop hv hss h1 h2
    simp only [VA.sliceNodeWithValue, hval, Option.getD_some]
    rw [if_neg hc1, if_neg hp, if_neg hbi, if_neg hbe]
    by_cases hck : n.ty = "inlineCode" ∨ n.ty = "code"
    · rw [if_neg (not_not_intro hck), if_pos (List.length_pos.mpr hne)]
    · rcases hcase with hcode | ⟨hb1, hb2⟩
      · exact absurd hcode hck
      · rw [if_pos hck, if_neg hb1, if_neg hb2, if_pos (List.length_pos.mpr hne)]
  · intro n ns ctx info v hval hv hss h1 h2 hp hbi hbe hck htrim
    have hc1 : ¬(ns + v.length ≤ ctx.start ∨ ns ≥ ctx.stop) := by omega
    simp only [VA.sliceNodeWithValue, hval, Option.getD_some]
    rw [if_neg hc1, if_neg hp, if_neg hbi, if_neg hbe, if_pos hck, if_pos htrim,
      condTrim_eq_branches]
    split <;> rfl
  · intro n ns ctx v hval hv hss h1 h2 hTW
    have hc1 : ¬(ns + v.length ≤ ctx.start ∨ ns ≥ ctx.stop) := by omega
    have hvl : ¬(v.length = 0) := by
      simpa [List.length_eq_zero] using hv
    have hne := jsSlice_overlap_ne_nil v ns ctx.start ctx.stop hv hss h1 h2
    have hg : ¬(ctx.opts.trimWhitespace = true ∧
        ¬((jsSlice v (ctx.start - ns) (min v.length (ctx.stop - ns))).isEmpty = true)) :=
      fun hcon => Bool.false_ne_true (hTW ▸ hcon.1)
    have hfin : ¬(List.length (jsSlice v (ctx.start - ns) (min v.length (ctx.stop - ns))) = 0
        ∧ 0 < List.length v) :=
      fun hcon => hne (List.length_eq_zero.mp hcon.1)
    simp only [VB.sliceText, hval, Option.getD_some]
    rw [if_neg hc1, if_neg hvl, if_neg hg, if_neg hfin]
  · intro n ns ctx v hval hv hss h1 h2 hTW
    have hc1 : ¬(ns + v.length ≤ ctx.start ∨ ns ≥ ctx.stop) := by omega
    have hvl : ¬(v.length = 0) := by
      simpa [List.length_eq_zero] using hv
    have hne := jsSlice_overlap_ne_nil v ns ctx.start ctx.stop hv hss h1 h2
    have hg : ctx.opts.trimWhitespace = true ∧
        ¬((jsSlice v (ctx.start - ns) (min v.length (ctx.stop - ns))).isEmpty = true) :=
      ⟨hTW, fun hie => hne (List.isEmpty_iff.mp hie)⟩
    simp only [VB.sliceText, hval, Option.getD_some]
    rw [if_neg hc1, if_neg hvl, if_pos hg]
    by_cases hS : ns ≥ ctx.start <;> by_cases hE : ns + v.length ≤ ctx.stop
    · rw [if_neg (show ¬(¬(ns ≥ ctx.start) ∧ ¬(ns + v.length ≤ ctx.stop)) from
          fun h => h.1 hS),
        if_neg (not_not_intro hS), if_neg (not_not_intro hE),
        if_neg (show ¬(ns < ctx.start ∧ ctx.stop < ns + v.length) by omega),
        if_neg (show ¬(ns < ctx.start) by omega),
        if_neg (show ¬(ctx.stop < ns + v.length) by omega)]
      exact emptyGuard_eq n _ v hv
    · rw [if_neg (show ¬(¬(ns ≥ ctx.start) ∧ ¬(ns + v.length ≤ ctx.stop)) from
          fun h => h.1 hS),
        if_neg (not_not_intro hS), if_pos (show ¬(ns + v.length ≤ ctx.stop) from hE),
        if_neg (show ¬(ns < ctx.start ∧ ctx.stop < ns + v.length) by omega),
        if_neg (show ¬(ns < ctx.start) by omega),
        if_pos (show ctx.stop < ns + v.length by omega)]
      exact emptyGuard_eq n _ v hv
    · rw [if_neg (show ¬(¬(ns ≥ ctx.start) ∧ ¬(ns + v.length ≤ ctx.stop)) from
          fun h => h.2 hE),
        if_pos (show ¬(ns ≥ ctx.start) from hS),
        if_neg (show ¬(ns < ctx.start ∧ ctx.stop < ns + v.length) by omega),
        if_pos (show ns < ctx.start by omega)]
      exact emptyGuard_eq n _ v hv
    · rw [if_pos (show ¬(ns ≥ ctx.start) ∧ ¬(ns + v.length ≤ ctx.stop) from ⟨hS, hE⟩),
        if_pos (show ns < ctx.start ∧ ctx.stop < ns + v.length by omega)]
      exact emptyGuard_eq n _ v hv

/-- C2 witness: the amended part_000 trim conjunct at `text(" ab")`
spanning `[2, 5)` sliced over `[1, 4)` with the default
configuration. -/
theorem C2_witness :
    ((mkText " ab").value = some (" ab".toList) ∧ (" ab".toList : Str) ≠ []
      ∧ c2ctx.start < c2ctx.stop ∧ 2 < c2ctx.stop
      ∧ c2ctx.start < 2 + (" ab".toList : Str).length
      ∧ ¬(2 ≥ c2ctx.start ∧ 2 + (" ab".toList : Str).length ≤ c2ctx.stop)
      ∧ ¬((mkText " ab").ty = "inlineCode" ∨ (mkText " ab").ty = "code")
      ∧ c2ctx.config.textHandling.boundaries = some "trim")
  ∧ (VA.sliceNodeWithValue (mkText " ab") 2 c2ctx info0).1
      = (let t := condTrim (decide (¬(2 : Nat) = c2ctx.start))
          (decide (¬2 + (" ab".toList : Str).length = c2ctx.stop))
          (jsSlice (" ab".toList) (c2ctx.start - 2)
            (min (" ab".toList : Str).length (c2ctx.stop - 2)));
        if t.length > 0 then some (cloneV (mkText " ab") t) else none) :=
  ⟨⟨by decide, by decide, by decide, by decide, by decide, by decide, by decide, by decide⟩,
   C2_leaf_truncation.2.1 (mkText " ab") 2 c2ctx info0 (" ab".toList)
     (by decide) (by decide) (by decide) (by decide) (by decide) (by decide)
     (by decide) (by decide) (by decide) (by decide)⟩

/-- A truthy `value` field holds a nonempty character list. -/
theorem truthyVal_spec (n : MNode) (h : truthyVal n = true) :
    ∃ c rest, n.value = some (c :: rest) := by
  unfold truthyVal at h
  rcases hv : n.value with _ | v
  · rw [hv] at h; simp at h
  · rcases v with _ | ⟨c, rest⟩
    · rw [hv] at h; simp at h
    · exact ⟨c, rest, rfl⟩

/-- The `value` projection at a constructor. -/
theorem MNode.value_node (t : String) (v : Option Str) (c : Option (List MNode))
    (a : List (String × String)) (i : Nat) : (MNode.node t v c a i).value = v := rfl

/-- The final emit-or-drop step of part_000's `sliceNodeWithValue`
only emits nodes with a nonempty value. -/
theorem sliceNWV_last_branch (n m : MNode) (i1 : VA.InfoA) (T : Str) :
    (if T.length > 0 then (some (cloneV n T), i1) else (none, i1)).1 = some m →
    m.value.getD [] ≠ [] := by
  by_cases hT : T.length > 0
  · rw [if_pos hT]; intro hm
    obtain rfl := (Option.some.inj hm).symm
    simp only [cloneV, MNode.value, Option.getD_some]
    exact List.length_pos.mp hT
  · rw [if_neg hT]; intro hm; exact Option.noConfusion hm

/-- The final emit-or-drop step of part_001's `sliceText` only emits
nodes with a nonempty value when the source value is nonempty. -/
theorem sliceText_last_branch (n m : MNode) (T v : Str) (hvp : 0 < v.length) :
    (if T.length = 0 ∧ v.length > 0 then none else some (cloneV n T)) = some m →
    m.value.getD [] ≠ [] := by
  by_cases hT : T.length = 0 ∧ v.length > 0
  · rw [if_pos hT]; intro hm; exact Option.noConfusion hm
  · rw [if_neg hT]; intro hm
    obtain rfl := (Option.some.inj hm).symm
    simp only [cloneV, MNode.value, Option.getD_some]
    intro hTe
    exact hT ⟨by rw [hTe]; rfl, hvp⟩

/-- C6 amended: a character-bearing leaf whose processed value comes
out empty is dropped by both implementations (part_000's
`sliceNodeWithValue` and part_001's `sliceText` never emit a node
with an empty `value`); and the empty-source-leaf exception uses the
STRICT overlap gate, not full containment: in both implementations a
zero-length `text` leaf at position `p` is kept exactly when
`start < p ∧ p < end` (strictly inside the open range), and is dropped
when it sits at either boundary even though its span `[p, p]` is then
still fully inside the closed range. -/
theorem C6_empty_leaf_policy :
    (∀ (n : MNode) (ns : Nat) (ctx : VA.CtxA) (info : VA.InfoA) (m : MNode),
      truthyVal n = true →
      (VA.sliceNodeWithValue n ns ctx info).1 = some m → m.value.getD [] ≠ [])
  ∧ (∀ (n : MNode) (ns ne : Nat) (ctx : VB.CtxB) (m : MNode),
      n.value.getD [] ≠ [] →
      VB.sliceText n ns ne ctx = some m → m.value.getD [] ≠ [])
  ∧ (∀ (fuel p : Nat) (ctx : VB.CtxB) (c : Option (List MNode))
      (a : List (String × String)) (i : Nat),
      VB.slice (fuel + 1) (MNode.node "text" (some []) c a i) p ctx
        = if ctx.start < p ∧ p < ctx.stop
          then .one (MNode.node "text" (some []) c a i) else .nothing)
  ∧ (∀ (fuel p : Nat) (ctx : VA.CtxA) (info : VA.InfoA)
      (a : List (String × String)) (i : Nat),
      VA.sliceNode (fuel + 1) (MNode.node "text" (some []) none a i) p ctx info
        = (if ctx.start < p ∧ p < ctx.stop
            then .one (cloneN (MNode.node "text" (some []) none a i)) else .nothing,
           info)) := by
  refine ⟨?_, ?_, ?_, ?_⟩
  · intro n ns ctx info m ht
    obtain ⟨c, rest, hval⟩ := truthyVal_spec n ht
    have hvne : (c :: rest : Str) ≠ [] := List.cons_ne_nil c rest
    revert hval hvne
    generalize (c :: rest : Str) = v
    intro hval hvne
    simp only [VA.sliceNodeWithValue]
    simp only [hval, Option.getD_some]
    by_cases h1 : ns + v.length ≤ ctx.start ∨ ns ≥ ctx.stop
    · rw [if_pos h1]; intro hm; exact Option.noConfusion hm
    rw [if_neg h1]
    by_cases h2 : ns ≥ ctx.start ∧ ns + v.length ≤ ctx.stop
    · rw [if_pos h2]; intro hm
      obtain rfl := (Option.some.inj hm).symm
      simp only [cloneN, MNode.value_node, hval, Option.getD_some]
      exact hvne
    rw [if_neg h2]
    by_cases h3 : VA.behaviorForValue ctx.config.partNodes n.ty = some "include-full"
    · rw [if_pos h3]; intro hm
      obtain rfl := (Option.some.inj hm).symm
      simp only [cloneN, MNode.value_node, hval, Option.getD_some]
      exact hvne
    rw [if_neg h3]
    by_cases h4 : VA.behaviorForValue ctx.config.partNodes n.ty = some "exclude-full"
    · rw [if_pos h4]; intro hm; exact Option.noConfusion hm
    rw [if_neg h4]
    apply sliceNWV_last_branch
  · intro n ns ne ctx m hv
    have hvl : ¬((n.value.getD []).length = 0) := fun h => hv (List.length_eq_zero.mp h)
    have hvp : 0 < (n.value.getD []).length := Nat.pos_of_ne_zero hvl
    simp only [VB.sliceText]
    by_cases h1 : ne ≤ ctx.start ∨ ns ≥ ctx.stop
    · rw [if_pos h1]; intro hm; exact Option.noConfusion hm
    rw [if_neg h1, if_neg hvl]
    exact sliceText_last_branch n m _ _ hvp
  · intro fuel p ctx c a i
    have hlen : VB.getNodeLength (MNode.node "text" (some []) c a i) = 0 := by
      rcases c with _ | cs <;> simp [VB.getNodeLength]
    simp only [VB.slice, hlen, Nat.add_zero]
    by_cases h : ctx.start < p ∧ p < ctx.stop
    · rw [if_neg (show ¬(p ≤ ctx.start ∨ p ≥ ctx.stop) by omega)]
      simp only [VB.sliceByType, MNode.ty]
      rw [if_pos trivial]
      simp only [VB.sliceText, MNode.value, Option.getD_some, List.length_nil]
      rw [if_neg (show ¬(p ≤ ctx.start ∨ p ≥ ctx.stop) by omega), if_pos trivial,
        if_pos (show p ≥ ctx.start ∧ p ≤ ctx.stop by omega), if_pos h]
      rfl
    · rw [if_neg h]
      rw [if_pos (show p ≤ ctx.start ∨ p ≥ ctx.stop by omega)]
  · intro fuel p ctx info a i
    simp [VA.sliceNode, truthyVal, MNode.value, VA.isFormatting, VA.isMedia,
      VA.isBlock, VA.isParent, MNode.ty, MNode.children, VA.calculateLength]
    by_cases h : ctx.start < p ∧ p < ctx.stop
    · simp [h]
    · simp [h]

/-- C6 witness: the part_000 conjunct at the fully-inside leaf
`text("ab")` over `[0, 2)` — the emitted clone carries the nonempty
value. -/
theorem C6_witness :
    (truthyVal (mkText "ab") = true
      ∧ (VA.sliceNodeWithValue (mkText "ab") 0 ⟨0, 2, VA.resolveConfig {}⟩ info0).1
          = some (cloneN (mkText "ab")))
  ∧ (cloneN (mkText "ab")).value.getD [] ≠ [] :=
  ⟨⟨by decide, by decide⟩,
   C6_empty_leaf_policy.1 (mkText "ab") 0 ⟨0, 2, VA.resolveConfig {}⟩ info0
     (cloneN (mkText "ab")) (by decide) (by decide)⟩

/-- `listFresh` distributes over append. -/
theorem listFresh_append (l1 l2 : List MNode) :
    listFresh (l1 ++ l2) = (listFresh l1 && listFresh l2) := by
  induction l1 with
  | nil => simp [listFresh]
  | cons c cs ih => simp [listFresh, ih, Bool.and_assoc]

/-- `listFresh` is the `all` of `treeFresh`. -/
theorem listFresh_eq_all (l : List MNode) : listFresh l = l.all treeFresh := by
  induction l with
  | nil => rfl
  | cons c cs ih => simp [listFresh, ih]

/-- Membership formulation of `listFresh`. -/
theorem listFresh_iff (l : List MNode) :
    listFresh l = true ↔ ∀ x ∈ l, treeFresh x = true := by
  rw [listFresh_eq_all, List.all_eq_true]

/-- `dropLast` preserves freshness. -/
theorem listFresh_dropLast (l : List MNode) (hl : listFresh l = true) :
    listFresh l.dropLast = true :=
  (listFresh_iff _).mpr fun x hx => (listFresh_iff l).mp hl x (List.dropLast_subset l hx)

/-- The last element of a fresh list is fresh. -/
theorem treeFresh_getLast (l : List MNode) (last : MNode) (hl : listFresh l = true)
    (hlast : l.getLast? = some last) : treeFresh last = true :=
  (listFresh_iff l).mp hl last (List.mem_of_getLast?_eq_some hlast)

/-- Retagging a fresh node (keeping its children) yields a fresh node. -/
theorem treeFresh_retag (last : MNode) (hl : treeFresh last = true) (t : String)
    (v : Option Str) (a : List (String × String)) :
    treeFresh (MNode.node t v last.children a 0) = true := by
  rcases last with ⟨t', v', c', a', i'⟩
  rcases c' with _ | cs
  · rfl
  · simp only [MNode.children, treeFresh, Bool.and_eq_true] at hl ⊢
    exact ⟨rfl, hl.2⟩

/-- `mergeStep` preserves freshness. -/
theorem mergeStep_fresh (result : List MNode) (n : MNode)
    (hr : listFresh result = true) (hn : treeFresh n = true) :
    listFresh (VA.mergeStep result n) = true := by
  rcases hlast : result.getLast? with _ | last <;>
    simp only [VA.mergeStep, hlast]
  · rw [listFresh_append]
    simp [hr, listFresh, hn]
  · by_cases hc : VA.isText last ∧ VA.isText n
    · rw [if_pos hc, listFresh_append]
      have hlf : treeFresh last = true := treeFresh_getLast result last hr hlast
      have h1 : listFresh result.dropLast = true := listFresh_dropLast result hr
      have h2 : treeFresh (MNode.node last.ty
          (some (last.value.getD [] ++ n.value.getD [])) last.children last.attrs 0)
          = true := treeFresh_retag last hlf _ _ _
      simp [h1, listFresh, h2]
    · rw [if_neg hc, listFresh_append]
      simp [hr, listFresh, hn]

/-- The `foldl` of `mergeAdjacentText` preserves freshness. -/
theorem foldl_mergeStep_fresh : ∀ (l acc : List MNode),
    listFresh acc = true → listFresh l = true →
    listFresh (l.foldl VA.mergeStep acc) = true := by
  intro l
  induction l with
  | nil => intro acc ha _; simpa using ha
  | cons c cs ih =>
    intro acc ha hl
    simp only [listFresh, Bool.and_eq_true] at hl
    rw [List.foldl_cons]
    exact ih (VA.mergeStep acc c) (mergeStep_fresh acc c ha hl.1) hl.2

/-- `mergeAdjacentText` preserves freshness. -/
theorem mergeAdjacentText_fresh (l : List MNode) (hl : listFresh l = true) :
    listFresh (VA.mergeAdjacentText l) = true :=
  foldl_mergeStep_fresh l [] rfl hl

/-- The children of a well-formed node form a well-formed list. -/
theorem wfNode_kids (n : MNode) (h : wfNode n = true) :
    wfList (n.children.getD []) = true := by
  rcases n with ⟨t, v, c, a, i⟩
  rcases c with _ | cs
  · rfl
  · rcases v with _ | (_ | ⟨ch, rest⟩)
    · simpa [wfNode, MNode.children] using h
    · simpa [wfNode, MNode.children] using h
    · simp [wfNode] at h

/-- A well-formed node with a truthy value is a leaf. -/
theorem truthy_wf_children (n : MNode) (hwf : wfNode n = true)
    (ht : truthyVal n = true) : n.children = none := by
  obtain ⟨c, rest, hval⟩ := truthyVal_spec n ht
  rcases n with ⟨t, v, ch, a, i⟩
  rcases ch with _ | cs
  · rfl
  · simp only [MNode.value] at hval
    subst hval
    simp [wfNode] at hwf

/-- A node that is not a parent has no `children` field. -/
theorem not_isParent_children (n : MNode) (h : ¬(VA.isParent n = true)) :
    n.children = none := by
  rcases hc : n.children with _ | cs
  · rfl
  · exact absurd (by simp [VA.isParent, hc]) h

/-- `cloneN` of a childless node is fresh. -/
theorem treeFresh_clone_of_none (n : MNode) (h : n.children = none) :
    treeFresh (cloneN n) = true := by
  rcases n with ⟨t, v, c, a, i⟩
  simp only [MNode.children] at h
  subst h
  rfl

/-- `cloneV` of a childless node is fresh. -/
theorem treeFresh_cloneV_of_none (n : MNode) (T : Str) (h : n.children = none) :
    treeFresh (cloneV n T) = true := by
  rcases n with ⟨t, v, c, a, i⟩
  simp only [MNode.children] at h
  subst h
  rfl

/-- A fresh node has fresh children. -/
theorem treeFresh_kids (p : MNode) (h : treeFresh p = true) :
    listFresh (p.children.getD []) = true := by
  rcases p with ⟨t, v, c, a, i⟩
  rcases c with _ | cs
  · rfl
  · simp only [treeFresh, Bool.and_eq_true] at h
    simpa [MNode.children] using h.2

/-- `cloneC` with fresh children is fresh. -/
theorem treeFresh_cloneC (n : MNode) (cs : List MNode) (h : listFresh cs = true) :
    treeFresh (cloneC n cs) = true := by
  simp [cloneC, treeFresh, h]

/-- `liftO` of an option whose payload is fresh is fresh. -/
theorem resFresh_liftO (o : Option MNode)
    (h : ∀ p, o = some p → treeFresh p = true) : resFresh (liftO o) = true := by
  rcases o with _ | p
  · rfl
  · simpa [liftO, resFresh] using h p rfl

/-- A fresh slice result flattens to a fresh list. -/
theorem resFresh_toList (r : SliceRes) (h : resFresh r = true) :
    listFresh r.toList = true := by
  cases r
  · rfl
  · simpa [SliceRes.toList, listFresh, resFresh] using h
  · simpa [SliceRes.toList, resFresh] using h

/-- The final emit-or-drop step of `sliceNodeWithValue` emits fresh
nodes when the input node is childless. -/
theorem sliceNWV_fresh_last (n m : MNode) (i1 : VA.InfoA) (T : Str)
    (hch : n.children = none) :
    (if T.length > 0 then (some (cloneV n T), i1) else (none, i1)).1 = some m →
    treeFresh m = true := by
  by_cases hT : T.length > 0
  · rw [if_pos hT]; intro hm
    obtain rfl := (Option.some.inj hm).symm
    exact treeFresh_cloneV_of_none n T hch
  · rw [if_neg hT]; intro hm; exact Option.noConfusion hm

/-- Every node emitted by part_000's `sliceNodeWithValue` on a
childless node is fresh. -/
theorem sliceNWV_fresh (n : MNode) (ns : Nat) (ctx : VA.CtxA) (info : VA.InfoA)
    (hch : n.children = none) :
    ∀ m, (VA.sliceNodeWithValue n ns ctx info).1 = some m → treeFresh m = true := by
  intro m
  simp only [VA.sliceNodeWithValue]
  by_cases h1 : ns + (n.value.getD []).length ≤ ctx.start ∨ ns ≥ ctx.stop
  · rw [if_pos h1]; intro hm; exact Option.noConfusion hm
  rw [if_neg h1]
  by_cases h2 : ns ≥ ctx.start ∧ ns + (n.value.getD []).length ≤ ctx.stop
  · rw [if_pos h2]; intro hm
    obtain rfl := (Option.some.inj hm).symm
    exact treeFresh_clone_of_none n hch
  rw [if_neg h2]
  by_cases h3 : VA.behaviorForValue ctx.config.partNodes n.ty = some "include-full"
  · rw [if_pos h3]; intro hm
    obtain rfl := (Option.some.inj hm).symm
    exact treeFresh_clone_of_none n hch
  rw [if_neg h3]
  by_cases h4 : VA.behaviorForValue ctx.config.partNodes n.ty = some "exclude-full"
  · rw [if_pos h4]; intro hm; exact Option.noConfusion hm
  rw [if_neg h4]
  exact sliceNWV_fresh_last n m _ _ hch

/-- The child loop of part_000's `sliceParent` produces a fresh list
whenever the recursive slicer does. -/
theorem sliceKids_fresh (recur : VA.RecA)
    (hrec : ∀ c pos ctx info, wfNode c = true →
      resFresh (recur c pos ctx info).1 = true) :
    ∀ (cs : List MNode) (pos : Nat) (ctx : VA.CtxA) (info : VA.InfoA),
      wfList cs = true → listFresh (VA.sliceKids recur cs pos ctx info).1 = true := by
  intro cs
  induction cs with
  | nil => intro pos ctx info _; rfl
  | cons c rest ih =>
    intro pos ctx info hw
    simp only [wfList, Bool.and_eq_true] at hw
    simp only [VA.sliceKids]
    rw [listFresh_append, Bool.and_eq_true]
    exact ⟨resFresh_toList _ (hrec c pos ctx info hw.1), ih _ _ _ hw.2⟩

/-- part_000's `sliceParent` only returns fresh containers. -/
theorem sliceParent_fresh (recur : VA.RecA)
    (hrec : ∀ c pos ctx info, wfNode c = true →
      resFresh (recur c pos ctx info).1 = true)
    (n : MNode) (ns : Nat) (ctx : VA.CtxA) (info : VA.InfoA)
    (hwf : wfNode n = true) :
    ∀ p, (VA.sliceParent recur n ns ctx info).1 = some p → treeFresh p = true := by
  intro p
  have hkids : listFresh (VA.sliceKids recur (n.children.getD []) ns ctx info).1 = true :=
    sliceKids_fresh recur hrec _ ns ctx info (wfNode_kids n hwf)
  simp only [VA.sliceParent]
  by_cases hmg : ctx.config.textHandling.mergeAdjacent = some true
  · rw [if_pos hmg]
    by_cases he : (VA.mergeAdjacentText
        (VA.sliceKids recur (n.children.getD []) ns ctx info).1).isEmpty = true
    · rw [if_pos he]; intro hm; exact Option.noConfusion hm
    · rw [if_neg he]; intro hm
      obtain rfl := (Option.some.inj hm).symm
      exact treeFresh_cloneC n _ (mergeAdjacentText_fresh _ hkids)
  · rw [if_neg hmg]
    by_cases he : ((VA.sliceKids recur (n.children.getD []) ns ctx info).1).isEmpty = true
    · rw [if_pos he]; intro hm; exact Option.noConfusion hm
    · rw [if_neg he]; intro hm
      obtain rfl := (Option.some.inj hm).symm
      exact treeFresh_cloneC n _ hkids

/-- part_000's `sliceFormatting` only emits fresh nodes. -/
theorem sliceFormatting_fresh (recur : VA.RecA)
    (hrec : ∀ c pos ctx info, wfNode c = true →
      resFresh (recur c pos ctx info).1 = true)
    (n : MNode) (ns : Nat) (ctx : VA.CtxA) (info : VA.InfoA)
    (hwf : wfNode n = true) :
    resFresh (VA.sliceFormatting recur n ns ctx info).1 = true := by
  simp only [VA.sliceFormatting]
  by_cases h1 : ns + VA.calculateLength n ≤ ctx.start ∨ ns ≥ ctx.stop
  · rw [if_pos h1]; rfl
  rw [if_neg h1]
  by_cases h2 : ns ≥ ctx.start ∧ ns + VA.calculateLength n ≤ ctx.stop
  · rw [if_pos h2]
    by_cases hp : VA.isParent n = true
    · rw [if_pos hp]
      exact resFresh_liftO _ (sliceParent_fresh recur hrec n ns ctx info hwf)
    · rw [if_neg hp]
      exact treeFresh_clone_of_none n (not_isParent_children n hp)
  rw [if_neg h2]
  by_cases h3 : ctx.config.partNodes.formatting = some "strip"
  · rw [if_pos h3]
    by_cases hp : VA.isParent n = true
    · rw [if_pos hp]
      rcases hsp : VA.sliceParent recur n ns ctx (VA.markInfo info n.ty) with ⟨_ | p, i2⟩
      · rfl
      · show listFresh (p.children.getD []) = true
        exact treeFresh_kids p (sliceParent_fresh recur hrec n ns ctx
          (VA.markInfo info n.ty) hwf p (by rw [hsp]))
    · rw [if_neg hp]; rfl
  rw [if_neg h3]
  by_cases h4 : ctx.config.partNodes.formatting = some "extend"
  · rw [if_pos h4]
    by_cases hp : VA.isParent n = true
    · rw [if_pos hp]
      exact resFresh_liftO _ (sliceParent_fresh recur hrec n ns ctx
        (VA.markInfo info n.ty) hwf)
    · rw [if_neg hp]
      exact treeFresh_clone_of_none n (not_isParent_children n hp)
  rw [if_neg h4]
  by_cases hp : VA.isParent n = true
  · rw [if_pos hp]
    exact resFresh_liftO _ (sliceParent_fresh recur hrec n ns ctx
      (VA.markInfo info n.ty) hwf)
  · rw [if_neg hp]
    exact treeFresh_clone_of_none n (not_isParent_children n hp)

/-- part_000's `sliceMedia` only emits fresh nodes. -/
theorem sliceMedia_fresh (recur : VA.RecA)
    (hrec : ∀ c pos ctx info, wfNode c = true →
      resFresh (recur c pos ctx info).1 = true)
    (n : MNode) (ns : Nat) (ctx : VA.CtxA) (info : VA.InfoA)
    (hwf : wfNode n = true) :
    resFresh (VA.sliceMedia recur n ns ctx info).1 = true := by
  simp only [VA.sliceMedia]
  by_cases h1 : ns + VA.calculateLength n ≤ ctx.start ∨ ns ≥ ctx.stop
  · rw [if_pos h1]; rfl
  rw [if_neg h1]
  by_cases h2 : ns ≥ ctx.start ∧ ns + VA.calculateLength n ≤ ctx.stop
  · rw [if_pos h2]
    by_cases hp : VA.isParent n = true
    · rw [if_pos hp]
      exact resFresh_liftO _ (sliceParent_fresh recur hrec n ns ctx info hwf)
    · rw [if_neg hp]
      exact treeFresh_clone_of_none n (not_isParent_children n hp)
  rw [if_neg h2]
  by_cases h3 : ctx.config.partNodes.media = some "strip"
  · rw [if_pos h3]; rfl
  rw [if_neg h3]
  by_cases h4 : ctx.config.partNodes.media = some "content-only"
  · rw [if_pos h4]
    by_cases hp : VA.isParent n = true
    · rw [if_pos hp]
      rcases hsp : VA.sliceParent recur n ns ctx (VA.markInfo info n.ty) with ⟨_ | p, i2⟩
      · rfl
      · show listFresh (p.children.getD []) = true
        exact treeFresh_kids p (sliceParent_fresh recur hrec n ns ctx
          (VA.markInfo info n.ty) hwf p (by rw [hsp]))
    · rw [if_neg hp]; rfl
  rw [if_neg h4]
  by_cases hp : VA.isParent n = true
  · rw [if_pos hp]
    exact resFresh_liftO _ (sliceParent_fresh recur hrec n ns ctx
      (VA.markInfo info n.ty) hwf)
  · rw [if_neg hp]
    exact treeFresh_clone_of_none n (not_isParent_children n hp)

/-- part_000's `sliceBlock` only emits fresh nodes. -/
theorem sliceBlock_fresh (recur : VA.RecA)
    (hrec : ∀ c pos ctx info, wfNode c = true →
      resFresh (recur c pos ctx info).1 = true)
    (n : MNode) (ns : Nat) (ctx : VA.CtxA) (info : VA.InfoA)
    (hwf : wfNode n = true) :
    resFresh (VA.sliceBlock recur n ns ctx info).1 = true := by
  simp only [VA.sliceBlock]
  by_cases h1 : ns + VA.calculateLength n ≤ ctx.start ∨ ns ≥ ctx.stop
  · rw [if_pos h1]; rfl
  rw [if_neg h1]
  by_cases h2 : ns ≥ ctx.start ∧ ns + VA.calculateLength n ≤ ctx.stop
  · rw [if_pos h2]
    by_cases hp : VA.isParent n = true
    · rw [if_pos hp]
      exact resFresh_liftO _ (sliceParent_fresh recur hrec n ns ctx info hwf)
    · rw [if_neg hp]
      exact treeFresh_clone_of_none n (not_isParent_children n hp)
  rw [if_neg h2]
  by_cases h3 : ctx.config.partNodes.blocks = some "exclude"
  · rw [if_pos h3]; rfl
  rw [if_neg h3]
  by_cases h4 : ctx.config.partNodes.blocks = some "unwrap"
  · rw [if_pos h4]
    by_cases hp : VA.isParent n = true
    · rw [if_pos hp]
      rcases hsp : VA.sliceParent recur n ns ctx (VA.markInfo info n.ty) with ⟨_ | p, i2⟩
      · rfl
      · show listFresh (p.children.getD []) = true
        exact treeFresh_kids p (sliceParent_fresh recur hrec n ns ctx
          (VA.markInfo info n.ty) hwf p (by rw [hsp]))
    · rw [if_neg hp]; rfl
  rw [if_neg h4]
  by_cases hp : VA.isParent n = true
  · rw [if_pos hp]
    exact resFresh_liftO _ (sliceParent_fresh recur hrec n ns ctx
      (VA.markInfo info n.ty) hwf)
  · rw [if_neg hp]
    exact treeFresh_clone_of_none n (not_isParent_children n hp)

/-- part_000's recursive `sliceNode` only emits fresh nodes on
well-formed input, for every fuel value. -/
theorem sliceNode_fresh : ∀ (fuel : Nat) (n : MNode) (ns : Nat) (ctx : VA.CtxA)
    (info : VA.InfoA), wfNode n = true →
    resFresh (VA.sliceNode fuel n ns ctx info).1 = true := by
  intro fuel
  induction fuel with
  | zero => intro n ns ctx info _; rfl
  | succ fuel ih =>
    intro n ns ctx info hwf
    simp only [VA.sliceNode]
    by_cases ht : truthyVal n = true
    · rw [if_pos ht]
      exact resFresh_liftO _ (sliceNWV_fresh n ns ctx info
        (truthy_wf_children n hwf ht))
    rw [if_neg ht]
    by_cases hf : VA.isFormatting n = true
    · rw [if_pos hf]; exact sliceFormatting_fresh _ ih n ns ctx info hwf
    rw [if_neg hf]
    by_cases hm : VA.isMedia n = true
    · rw [if_pos hm]; exact sliceMedia_fresh _ ih n ns ctx info hwf
    rw [if_neg hm]
    by_cases hb : VA.isBlock n = true
    · rw [if_pos hb]; exact sliceBlock_fresh _ ih n ns ctx info hwf
    rw [if_neg hb]
    by_cases hp : VA.isParent n = true
    · rw [if_pos hp]
      exact resFresh_liftO _ (sliceParent_fresh _ ih n ns ctx info hwf)
    rw [if_neg hp]
    by_cases ho : ns + VA.calculateLength n > ctx.start ∧ ns < ctx.stop
    · rw [if_pos ho]
      exact treeFresh_clone_of_none n (not_isParent_children n hp)
    · rw [if_neg ho]; rfl

/-- C7 amended: part_000's `slice` never returns an alias of an input
node: on a well-formed tree (truthy-valued nodes are leaves) every
node reachable from the returned `node` is a fresh allocation
(identity tag 0), produced by a shallow clone or a rebuilt container.
(In this pure embedding the input tree itself is trivially unchanged;
the content of the claim is the freshness of the output.  part_001
does NOT have this property — see the C7 counterexample.) -/
theorem C7_fresh_clones (tree : Option MNode) (s : Int) (e : Option Int)
    (cfg : VA.SliceConfigA) (hwf : wfOpt tree = true) :
    (VA.slice tree s e cfg).node.all treeFresh = true := by
  rcases tree with _ | t
  · rfl
  · have hwt : wfNode t = true := hwf
    simp only [VA.slice]
    by_cases h0 : s < 0
    · rw [if_pos h0]; rfl
    rw [if_neg h0]
    by_cases h1 : s ≥ VA.actualEndOf (VA.getLength (some t)) e
    · rw [if_pos h1]; rfl
    rw [if_neg h1]
    have hfr := sliceNode_fresh (fuelFor t) t 0
      { start := s.toNat, stop := (VA.actualEndOf (VA.getLength (some t)) e).toNat,
        config := VA.resolveConfig cfg } ⟨false, []⟩ hwt
    rcases hR : (VA.sliceNode (fuelFor t) t 0
      { start := s.toNat, stop := (VA.actualEndOf (VA.getLength (some t)) e).toNat,
        config := VA.resolveConfig cfg } ⟨false, []⟩).1 with _ | m | ms
    · simp
    · rw [hR] at hfr
      simpa [resFresh] using hfr
    · simp

/-- C7 witness: slicing the identity-tagged tree
`paragraph#5[text#6("ab")]` over `[0, 1)` yields only fresh nodes. -/
theorem C7_amended_witness :
    wfOpt (some c7tree) = true
  ∧ (VA.slice (some c7tree) 0 (some 1) {}).node.all treeFresh = true :=
  ⟨by decide, C7_fresh_clones (some c7tree) 0 (some 1) {} (by decide)⟩

/-- A match of a nonempty needle fits inside the haystack. -/
theorem matchAt_fits (v n : Str) (hn : n ≠ []) (j : Nat)
    (h : matchAt v n j = true) : j + n.length ≤ v.length := by
  simp only [matchAt, beq_iff_eq] at h
  have hl := congrArg List.length h
  simp only [List.length_take, List.length_drop] at hl
  have hp := List.length_pos.mpr hn
  omega

/-- Soundness of the `indexOf` loop: a hit is the first match at or
after the start index. -/
theorem indexOfLoop_some (v n : Str) :
    ∀ (fuel i j : Nat), VA.indexOfLoop v n fuel i = some j →
      i ≤ j ∧ j + n.length ≤ v.length ∧ matchAt v n j = true ∧
      ∀ k, i ≤ k → k < j → matchAt v n k = false := by
  intro fuel
  induction fuel with
  | zero => intro i j h; exact absurd h (by simp [VA.indexOfLoop])
  | succ fuel ih =>
    intro i j h
    simp only [VA.indexOfLoop] at h
    by_cases hfit : i + n.length ≤ v.length
    · rw [if_pos hfit] at h
      by_cases hm : matchAt v n i = true
      · rw [if_pos hm] at h
        obtain rfl := Option.some.inj h
        exact ⟨le_refl i, hfit, hm, fun k hk1 hk2 => absurd hk1 (by omega)⟩
      · rw [if_neg hm] at h
        obtain ⟨h1, h2, h3, h4⟩ := ih (i + 1) j h
        refine ⟨by omega, h2, h3, fun k hk1 hk2 => ?_⟩
        rcases Nat.eq_or_lt_of_le hk1 with rfl | hk
        · exact Bool.eq_false_iff.mpr hm
        · exact h4 k (by omega) hk2
    · rw [if_neg hfit] at h
      exact absurd h (by simp)

/-- Completeness of the `indexOf` loop: with sufficient fuel, `none`
means no match at or after the start index. -/
theorem indexOfLoop_none (v n : Str) (hn : n ≠ []) :
    ∀ (fuel i : Nat), v.length + 1 - i ≤ fuel → VA.indexOfLoop v n fuel i = none →
      ∀ k, i ≤ k → matchAt v n k = false := by
  intro fuel
  induction fuel with
  | zero =>
    intro i hf _ k hk
    cases hmk : matchAt v n k
    · rfl
    · exfalso
      have h1 := matchAt_fits v n hn k hmk
      have h2 := List.length_pos.mpr hn
      omega
  | succ fuel ih =>
    intro i hf h k hk
    simp only [VA.indexOfLoop] at h
    by_cases hfit : i + n.length ≤ v.length
    · rw [if_pos hfit] at h
      by_cases hm : matchAt v n i = true
      · rw [if_pos hm] at h; exact absurd h (by simp)
      · rw [if_neg hm] at h
        rcases Nat.eq_or_lt_of_le hk with rfl | hk2
        · exact Bool.eq_false_iff.mpr hm
        · exact ih (i + 1) (by omega) h k (by omega)
    · cases hmk : matchAt v n k
      · rfl
      · exfalso
        have h1 := matchAt_fits v n hn k hmk
        have h2 := List.length_pos.mpr hn
        omega

/-- `specOccGo` is empty on a match-free suffix. -/
theorem specOccGo_nil (v n : Str) :
    ∀ (rem i : Nat), (∀ k, i ≤ k → matchAt v n k = false) →
      specOccGo v n rem i = [] := by
  intro rem
  induction rem with
  | zero => intro i _; rfl
  | succ rem ih =>
    intro i h
    simp only [specOccGo]
    rw [if_neg (by rw [h i (le_refl i)]; exact Bool.false_ne_true), List.nil_append]
    exact ih (i + 1) (fun k hk => h k (by omega))

/-- `specOccGo` skips to the first match. -/
theorem specOccGo_cons (v n : Str) :
    ∀ (rem i j : Nat), i ≤ j → j < i + rem → matchAt v n j = true →
      (∀ k, i ≤ k → k < j → matchAt v n k = false) →
      specOccGo v n rem i = j :: specOccGo v n (rem - (j + 1 - i)) (j + 1) := by
  intro rem
  induction rem with
  | zero => intro i j h1 h2 _ _; exact absurd h2 (by omega)
  | succ rem ih =>
    intro i j h1 h2 h3 h4
    rcases Nat.eq_or_lt_of_le h1 with rfl | hlt
    · simp only [specOccGo]
      rw [if_pos h3]
      have heq : rem + 1 - (i + 1 - i) = rem := by omega
      rw [heq]
      rfl
    · simp only [specOccGo]
      rw [if_neg (by rw [h4 i (le_refl i) hlt]; exact Bool.false_ne_true),
        List.nil_append]
      have heq : rem + 1 - (j + 1 - i) = rem - (j + 1 - (i + 1)) := by omega
      rw [heq]
      exact ih (i + 1) j (by omega) (by omega) h3 (fun k hk1 hk2 => h4 k (by omega) hk2)

/-- Past the end of the haystack the `indexOf` loop finds nothing. -/
theorem occLoop_empty_of_oob (v n : Str) (fuel i : Nat)
    (hi : v.length + 1 - i = 0) : VA.occLoop v n fuel i = [] := by
  cases fuel
  · rfl
  · simp only [VA.occLoop]
    have hio : VA.indexOfFrom v n i = none := by
      unfold VA.indexOfFrom
      rw [hi]
      rfl
    rw [hio]

/-- The part_000 `indexOf` scan with stride 1 agrees with the
occurrence specification, for any sufficient fuel. -/
theorem occLoop_spec (v n : Str) (hn : n ≠ []) :
    ∀ (d fuel i : Nat), v.length + 1 - i ≤ fuel → v.length + 1 - i ≤ d →
      VA.occLoop v n fuel i = specOccGo v n (v.length - i) i := by
  intro d
  induction d with
  | zero =>
    intro fuel i hf hd
    rw [occLoop_empty_of_oob v n fuel i (by omega)]
    have h0 : v.length - i = 0 := by omega
    rw [h0]
    rfl
  | succ d ih =>
    intro fuel i hf hd
    by_cases hoob : v.length + 1 - i = 0
    · rw [occLoop_empty_of_oob v n fuel i hoob]
      have h0 : v.length - i = 0 := by omega
      rw [h0]
      rfl
    · cases fuel with
      | zero => exact absurd hf (by omega)
      | succ fuel =>
        simp only [VA.occLoop]
        rcases hio : VA.indexOfFrom v n i with _ | j
        · rw [specOccGo_nil v n _ i (indexOfLoop_none v n hn _ i (le_refl _) hio)]
        · obtain ⟨hij, hfit, hmj, hnom⟩ := indexOfLoop_some v n _ i j hio
          have hp := List.length_pos.mpr hn
          rw [specOccGo_cons v n (v.length - i) i j hij (by omega) hmj hnom]
          have heq : v.length - i - (j + 1 - i) = v.length - (j + 1) := by omega
          rw [heq]
          exact congrArg (j :: ·) (ih fuel (j + 1) (by omega) (by omega))

/-- `VA.occFrom` agrees with the occurrence specification. -/
theorem occFrom_eq_specOcc (v n : Str) (hn : n ≠ []) (i : Nat) :
    VA.occFrom v n i = specOccGo v n (v.length - i) i :=
  occLoop_spec v n hn (v.length + 1 - i) (v.length + 1 - i) i (le_refl _) (le_refl _)

/-- `totalLen` distributes over append. -/
theorem totalLen_append (l1 l2 : List Str) :
    totalLen (l1 ++ l2) = totalLen l1 + totalLen l2 := by
  simp [totalLen]

/-- `specPositions` distributes over append, shifting the offset by
the total searched length. -/
theorem specPositions_append (n : Str) :
    ∀ (l1 l2 : List Str) (off : Nat),
      specPositions (l1 ++ l2) n off
        = specPositions l1 n off ++ specPositions l2 n (off + totalLen l1) := by
  intro l1
  induction l1 with
  | nil => intro l2 off; simp [specPositions, totalLen]
  | cons v rest ih =>
    intro l2 off
    have ht : totalLen (v :: rest) = v.length + totalLen rest := by
      simp [totalLen]
    simp only [List.cons_append, specPositions, List.append_eq,
      ih l2 (off + v.length), List.append_assoc, ht, Nat.add_assoc]

/-- A child is structurally smaller than its parent node. -/
theorem sizeOf_mem_children {c : MNode} {cs : List MNode} (h : c ∈ cs)
    (ty : String) (v : Option Str) (attrs : List (String × String)) (i : Nat) :
    sizeOf c < sizeOf (MNode.node ty v (some cs) attrs i) := by
  have h1 : sizeOf c < sizeOf cs := List.sizeOf_lt_of_mem h
  simp only [MNode.node.sizeOf_spec, Option.some.sizeOf_spec]
  omega

/-- The child loop of `findText` agrees with the specification when
every child does. -/
theorem findTextKids_spec_of (needle : Str) :
    ∀ (cs : List MNode),
      (∀ m ∈ cs, ∀ off, VA.findTextAux m needle off
        = (specPositions (countedVals m) needle off,
           off + totalLen (countedVals m))) →
      ∀ off, VA.findTextKids cs needle off
        = (specPositions (countedValsKids cs) needle off,
           off + totalLen (countedValsKids cs)) := by
  intro cs
  induction cs with
  | nil => intro _ off; rfl
  | cons c rest ihl =>
    intro IH off
    simp only [VA.findTextKids, countedValsKids]
    rw [IH c (List.mem_cons_self c rest) off,
      ihl (fun m hm off => IH m (List.mem_cons_of_mem c hm) off)]
    simp [specPositions_append, totalLen_append, Nat.add_assoc]

/-- `findText`'s traversal agrees with the document-order occurrence
specification for a nonempty needle. -/
theorem findTextAux_spec (needle : Str) (hn : needle ≠ []) :
    ∀ (n : MNode) (off : Nat),
      VA.findTextAux n needle off
        = (specPositions (countedVals n) needle off,
           off + totalLen (countedVals n)) := by
  refine mnode_strong_ind _ ?_
  intro n IH off
  rcases n with ⟨ty, v, c, a, i⟩
  rcases c with _ | cs
  · have hunfold : VA.findTextAux (MNode.node ty v none a i) needle off
        = (if ty = "text" then
            (((VA.occFrom (v.getD []) needle 0).map (off + ·)), off + (v.getD []).length)
          else if ty = "code" ∨ ty = "inlineCode" then
            (((VA.occFrom (v.getD []) needle 0).map (off + ·)), off + (v.getD []).length)
          else ([], off)) := rfl
    have hcv : countedVals (MNode.node ty v none a i)
        = (if ty = "text" ∨ ty = "code" ∨ ty = "inlineCode" then [v.getD []]
          else []) := rfl
    rw [hunfold, hcv]
    by_cases hty : ty = "text"
    · rw [if_pos hty, if_pos (Or.inl hty)]
      simp [specPositions, totalLen, specOcc, occFrom_eq_specOcc _ _ hn]
    · by_cases hcd : ty = "code" ∨ ty = "inlineCode"
      · rw [if_neg hty, if_pos hcd, if_pos (Or.inr hcd)]
        simp [specPositions, totalLen, specOcc, occFrom_eq_specOcc _ _ hn]
      · rw [if_neg hty, if_neg hcd, if_neg (fun hor => hor.elim hty hcd)]
        simp [specPositions, totalLen]
  · have hunfold : VA.findTextAux (MNode.node ty v (some cs) a i) needle off
        = (if ty = "text" then
            (((VA.occFrom (v.getD []) needle 0).map (off + ·)), off + (v.getD []).length)
          else if ty = "code" ∨ ty = "inlineCode" then
            (((VA.occFrom (v.getD []) needle 0).map (off + ·)), off + (v.getD []).length)
          else VA.findTextKids cs needle off) := rfl
    have hcv : countedVals (MNode.node ty v (some cs) a i)
        = (if ty = "text" ∨ ty = "code" ∨ ty = "inlineCode" then [v.getD []]
          else countedValsKids cs) := rfl
    rw [hunfold, hcv]
    by_cases hty : ty = "text"
    · rw [if_pos hty, if_pos (Or.inl hty)]
      simp [specPositions, totalLen, specOcc, occFrom_eq_specOcc _ _ hn]
    · by_cases hcd : ty = "code" ∨ ty = "inlineCode"
      · rw [if_neg hty, if_pos hcd, if_pos (Or.inr hcd)]
        simp [specPositions, totalLen, specOcc, occFrom_eq_specOcc _ _ hn]
      · rw [if_neg hty, if_neg hcd, if_neg (fun hor => hor.elim hty hcd)]
        exact findTextKids_spec_of needle cs
          (fun m hm off => IH m (sizeOf_mem_children hm ty v a i) off) off

/-- C9: `findText` returns exactly the document-order starting
offsets of literal occurrences of the needle inside the searched
(`text`/`code`/`inlineCode`) leaf values; an empty needle returns the
empty list for every tree; and the overlapping stride-1 scan on
`text("aaaa")` with needle `"aa"` yields `[0, 1, 2]`. -/
theorem C9_findText_spec :
    (∀ t : MNode, VA.findText t [] = [])
  ∧ (VA.findText (mkText "aaaa") "aa".toList = [0, 1, 2])
  ∧ (∀ (t : MNode) (needle : Str), needle ≠ [] →
      VA.findText t needle = specFind t needle) := by
  refine ⟨fun t => rfl, by decide, ?_⟩
  intro t needle hne
  have hlen : ¬(needle.length < 1) := by
    have := List.length_pos.mpr hne; omega
  simp only [VA.findText, specFind]
  rw [if_neg hlen, findTextAux_spec needle hne t 0]

/-- C9 witness: searching `"l"` in the C1 tree
`paragraph[text("Hello "), emphasis[text("world")], text(" test")]`
through the nonempty-needle specification conjunct. -/
theorem C9_witness :
    ("l".toList ≠ ([] : Str))
  ∧ VA.findText c1tree "l".toList = specFind c1tree "l".toList :=
  ⟨by decide, C9_findText_spec.2.2 c1tree "l".toList (by decide)⟩
